import Mathlib

/-!
Verification model of the ANI-Crawler crawl-state and change-detection engine.

The Python modules `src/utils/content_comparison.py`,
`src/utils/mongo_state_adapter.py` and `src/utils/state_manager.py` are
shallowly embedded below:

* the pure helpers (`difflib.SequenceMatcher`, `difflib.ndiff`, the regex
  based normalizers, the diff classification loop) are translated into
  executable Lean functions;
* MongoDB collections are modelled as lists of records of a single `site_id`,
  with `find_one_and_update` / `update_many` / upserts translated into list
  transformations;
* wall-clock readings (`time.time()` / `datetime.now()`) are passed explicitly
  as integer parameters (seconds); Python floats used for ratios are modelled
  as exact rationals.
-/

namespace Difflib

/-- One `(i, j, size)` matching triple of `difflib.SequenceMatcher`. -/
structure Block where
  ai : Nat
  bj : Nat
  size : Nat
deriving DecidableEq, Repr

/-- Junk configuration of a `SequenceMatcher` instance: the `isjunk` argument
and the `autojunk` flag of the constructor. -/
structure Cfg (α : Type) where
  junk : α → Bool
  autojunk : Bool

variable {α : Type} [DecidableEq α]

/-- `a[i] == b[j]`, false when either index is out of range (the source only
compares in-range indices). -/
def elemsEq (a : List α) (i : Nat) (b : List α) (j : Nat) : Bool :=
  match a.get? i, b.get? j with
  | some x, some y => decide (x = y)
  | _, _ => false

/-- `isbjunk(b[j])`: membership of `b[j]` in the `bjunk` set built by
`__chain_b` (the junk elements occurring in `b`). -/
def junkAt (cfg : Cfg α) (b : List α) (j : Nat) : Bool :=
  match b.get? j with
  | some x => cfg.junk x
  | none => false

/-- Membership in the `bpopular` set built by `__chain_b`: when `autojunk` is
on and `b` has at least 200 elements, the non-junk elements occurring more
than `len(b) // 100 + 1` times. -/
def isPopular (cfg : Cfg α) (b : List α) (x : α) : Bool :=
  cfg.autojunk && decide (200 ≤ b.length) && !cfg.junk x &&
    decide (b.length / 100 + 1 < b.count x)

/-- `b2j.get(elt, [])` after `__chain_b`: the ascending positions of `elt` in
`b`, empty for junk and popular elements (which `__chain_b` purges). -/
def b2jGet (cfg : Cfg α) (b : List α) (x : α) : List Nat :=
  if cfg.junk x || isPopular cfg b x then []
  else (List.range b.length).filter (fun j => decide (b.get? j = some x))

/-- The dictionary pass of `find_longest_match`: for each `i` in `[alo, ahi)`
extend the `j2len` chains over the positions of `a[i]` in `b` that lie in
`[blo, bhi)` (the `continue`/`break` of the source, since the position lists
are ascending), tracking the first longest chain (strict `k > bestsize`). -/
def flmDict (cfg : Cfg α) (a b : List α) (alo ahi blo bhi : Nat) :
    Nat × Nat × Nat :=
  let final := (List.range' alo (ahi - alo)).foldl
    (fun (st : (Nat × Nat × Nat) × (Nat → Nat)) (i : Nat) =>
      let j2len := st.2
      let js := ((match a.get? i with
        | some x => b2jGet cfg b x
        | none => []).filter (fun j => decide (blo ≤ j) && decide (j < bhi)))
      js.foldl
        (fun (st2 : (Nat × Nat × Nat) × (Nat → Nat)) (j : Nat) =>
          let best := st2.1
          let newj2len := st2.2
          let k := (if j = 0 then 0 else j2len (j - 1)) + 1
          ((if best.2.2 < k then (i + 1 - k, j + 1 - k, k) else best),
           fun j' => if j' = j then k else newj2len j'))
        (st.1, fun _ => 0))
    ((alo, blo, 0), fun _ => 0)
  final.1

/-- A backward extension loop of `find_longest_match`: while the guard `ok`
holds, move the match one position left and grow it.  The fuel bounds the
iteration count; the source loops decrease `besti`, so `besti` is always
enough fuel. -/
def extendLo (ok : Nat → Nat → Bool) : Nat → Nat × Nat × Nat → Nat × Nat × Nat
  | 0, st => st
  | Nat.succ f, (bi, bj, bs) =>
    if ok bi bj then extendLo ok f (bi - 1, bj - 1, bs + 1) else (bi, bj, bs)

/-- A forward extension loop of `find_longest_match`: while the guard `ok`
holds, grow the match by one.  The source loops keep `besti + bestsize < ahi`,
so `ahi` is always enough fuel. -/
def extendHi (ok : Nat → Nat → Nat → Bool) :
    Nat → Nat × Nat × Nat → Nat × Nat × Nat
  | 0, st => st
  | Nat.succ f, (bi, bj, bs) =>
    if ok bi bj bs then extendHi ok f (bi, bj, bs + 1) else (bi, bj, bs)

/-- `SequenceMatcher.find_longest_match` over `a[alo:ahi]` / `b[blo:bhi]`:
the dictionary pass followed by the four extension loops (non-junk backward,
non-junk forward, junk backward, junk forward). -/
def flm (cfg : Cfg α) (a b : List α) (alo ahi blo bhi : Nat) :
    Nat × Nat × Nat :=
  let lo1 := fun bi bj => decide (alo < bi) && decide (blo < bj) &&
    !junkAt cfg b (bj - 1) && elemsEq a (bi - 1) b (bj - 1)
  let hi1 := fun bi bj bs => decide (bi + bs < ahi) && decide (bj + bs < bhi) &&
    !junkAt cfg b (bj + bs) && elemsEq a (bi + bs) b (bj + bs)
  let lo2 := fun bi bj => decide (alo < bi) && decide (blo < bj) &&
    junkAt cfg b (bj - 1) && elemsEq a (bi - 1) b (bj - 1)
  let hi2 := fun bi bj bs => decide (bi + bs < ahi) && decide (bj + bs < bhi) &&
    junkAt cfg b (bj + bs) && elemsEq a (bi + bs) b (bj + bs)
  let d0 := flmDict cfg a b alo ahi blo bhi
  let d1 := extendLo lo1 d0.1 d0
  let d2 := extendHi hi1 ahi d1
  let d3 := extendLo lo2 d2.1 d2
  extendHi hi2 ahi d3

/-- The block collection of `get_matching_blocks`.  The source drains a queue
and then sorts the collected triples; in-order recursion produces the same
triples directly in sorted order.  The fuel bounds the recursion depth:
`(ahi - alo) + (bhi - blo)` shrinks strictly at each level. -/
def blocksAux (cfg : Cfg α) (a b : List α) :
    Nat → Nat → Nat → Nat → Nat → List Block
  | 0, _, _, _, _ => []
  | Nat.succ f, alo, ahi, blo, bhi =>
    let m := flm cfg a b alo ahi blo bhi
    let i := m.1
    let j := m.2.1
    let k := m.2.2
    if k = 0 then []
    else
      (if alo < i ∧ blo < j then blocksAux cfg a b f alo i blo j else []) ++
      [⟨i, j, k⟩] ++
      (if i + k < ahi ∧ j + k < bhi then
        blocksAux cfg a b f (i + k) ahi (j + k) bhi else [])

/-- The adjacent-block collapsing pass of `get_matching_blocks`. -/
def collapse : Nat × Nat × Nat → List Block → List Block
  | (i1, j1, k1), [] => if k1 ≠ 0 then [⟨i1, j1, k1⟩] else []
  | (i1, j1, k1), blk :: rest =>
    if i1 + k1 = blk.ai ∧ j1 + k1 = blk.bj then
      collapse (i1, j1, k1 + blk.size) rest
    else
      (if k1 ≠ 0 then [⟨i1, j1, k1⟩] else []) ++
        collapse (blk.ai, blk.bj, blk.size) rest

/-- `SequenceMatcher.get_matching_blocks`, with the `(len(a), len(b), 0)`
sentinel appended. -/
def matchingBlocks (cfg : Cfg α) (a b : List α) : List Block :=
  collapse (0, 0, 0)
      (blocksAux cfg a b (a.length + b.length + 1) 0 a.length 0 b.length) ++
    [⟨a.length, b.length, 0⟩]

/-- The tag of one `get_opcodes` entry. -/
inductive OTag
  | replace
  | del
  | ins
  | eq
deriving DecidableEq, Repr

/-- One `(tag, i1, i2, j1, j2)` entry of `get_opcodes`. -/
structure Opcode where
  tag : OTag
  a1 : Nat
  a2 : Nat
  b1 : Nat
  b2 : Nat
deriving DecidableEq, Repr

/-- The opcode construction of `SequenceMatcher.get_opcodes` from the
matching blocks. -/
def opcodesFrom : Nat → Nat → List Block → List Opcode
  | _, _, [] => []
  | i, j, blk :: rest =>
    (if i < blk.ai ∧ j < blk.bj then [⟨OTag.replace, i, blk.ai, j, blk.bj⟩]
     else if i < blk.ai then [⟨OTag.del, i, blk.ai, j, blk.bj⟩]
     else if j < blk.bj then [⟨OTag.ins, i, blk.ai, j, blk.bj⟩]
     else []) ++
    (if blk.size ≠ 0 then
      [⟨OTag.eq, blk.ai, blk.ai + blk.size, blk.bj, blk.bj + blk.size⟩]
     else []) ++
    opcodesFrom (blk.ai + blk.size) (blk.bj + blk.size) rest

/-- `SequenceMatcher.get_opcodes`. -/
def opcodes (cfg : Cfg α) (a b : List α) : List Opcode :=
  opcodesFrom 0 0 (matchingBlocks cfg a b)

/-- Total size of the matching blocks (`matches` in `ratio`). -/
def matchedTotal (cfg : Cfg α) (a b : List α) : Nat :=
  (matchingBlocks cfg a b).foldl (fun acc blk => acc + blk.size) 0

/-- An unreduced nonnegative fraction.  `difflib` computes its similarity
ratios as Python floats; the model keeps the exact numerator/denominator pair
and compares fractions by cross-multiplication, which agrees with the
real-number comparison (no threshold involved is close enough to a floating
point rounding boundary to matter for the comparisons the source makes). -/
structure Ratio where
  num : Nat
  den : Nat
deriving DecidableEq, Repr

/-- Strict fraction comparison (denominators are positive throughout). -/
def ratioLt (a b : Ratio) : Bool := decide (a.num * b.den < b.num * a.den)

/-- `SequenceMatcher.ratio() = 2.0 * M / T` (`1.0` when both sequences are
empty). -/
def smRatio (cfg : Cfg α) (a b : List α) : Ratio :=
  if a.length + b.length = 0 then ⟨1, 1⟩
  else ⟨2 * matchedTotal cfg a b, a.length + b.length⟩


/-- `IS_CHARACTER_JUNK`: blanks and tabs. -/
def isCharacterJunk (c : Char) : Bool := c = ' ' || c = '\t'

/-- Configuration of `SequenceMatcher(None, a, b)` on strings (no junk). -/
def noJunkChar : Cfg Char := ⟨fun _ => false, true⟩

/-- Configuration of the line-level `SequenceMatcher` inside `ndiff`
(`linejunk=None`). -/
def noJunkLine : Cfg String := ⟨fun _ => false, true⟩

/-- Configuration of the `charjunk` cruncher used inside `Differ`
(`charjunk=IS_CHARACTER_JUNK`). -/
def charJunkCfg : Cfg Char := ⟨isCharacterJunk, true⟩

/-- The four kinds of lines `Differ.compare` yields: `+ `, `- `, two blanks,
and `? `.  The source renders each as the two-character tag followed by the
content and later inspects only the tag prefix and `line[2:]`, so tag and
content are modelled as separate fields. -/
inductive DTag
  | add
  | del
  | eq
  | hint
deriving DecidableEq, Repr

/-- One output line of `ndiff`. -/
structure DiffEntry where
  tag : DTag
  text : String
deriving DecidableEq, Repr

/-- `Differ._dump(tag, x, lo, hi)`: tag every element of the slice `x[lo:hi]`. -/
def dump (t : DTag) (x : List String) (lo hi : Nat) : List DiffEntry :=
  ((x.drop lo).take (hi - lo)).map (fun s => ⟨t, s⟩)

/-- `Differ._plain_replace`. -/
def plainReplace (a : List String) (alo ahi : Nat) (b : List String)
    (blo bhi : Nat) : List DiffEntry :=
  if bhi - blo < ahi - alo then dump .add b blo bhi ++ dump .del a alo ahi
  else dump .del a alo ahi ++ dump .add b blo bhi

/-- Python `str.isspace` restricted to ASCII (all the characters reaching the
hint construction here are ASCII). -/
def pyIsSpace (c : Char) : Bool :=
  c = ' ' || c = '\t' || c = '\n' || c = '\x0b' || c = '\x0c' || c = '\r'

/-- `difflib._keep_original_ws`. -/
def keepOriginalWs (s tags : String) : String :=
  String.mk ((s.toList.zip tags.toList).map
    (fun p => if pyIsSpace p.1 && p.2 = ' ' then p.1 else p.2))

/-- Python `str.rstrip()` (ASCII whitespace). -/
def pyRstrip (s : String) : String :=
  String.mk ((s.toList.reverse.dropWhile pyIsSpace).reverse)

/-- String of `n` copies of `c` (`tag * n` in the source). -/
def repChar (c : Char) (n : Nat) : String := String.mk (List.replicate n c)

/-- The intraline tag construction of `_fancy_replace`: the loop over the
charjunk cruncher opcodes of the chosen line pair. -/
def intralineTags (aelt belt : String) : String × String :=
  (opcodes charJunkCfg aelt.toList belt.toList).foldl
    (fun (ab : String × String) op =>
      match op.tag with
      | .replace =>
        (ab.1 ++ repChar '^' (op.a2 - op.a1), ab.2 ++ repChar '^' (op.b2 - op.b1))
      | .del => (ab.1 ++ repChar '-' (op.a2 - op.a1), ab.2)
      | .ins => (ab.1, ab.2 ++ repChar '+' (op.b2 - op.b1))
      | .eq =>
        (ab.1 ++ repChar ' ' (op.a2 - op.a1), ab.2 ++ repChar ' ' (op.b2 - op.b1)))
    ("", "")

/-- `Differ._qformat`: the `- `/`+ ` pair of a fancy-matched line pair, with
`? ` hint lines when the processed intraline tags are nonempty.  (The hint
text carries a trailing newline in the source; no consumer modelled here
reads hint contents.) -/
def qformat (aline bline atags btags : String) : List DiffEntry :=
  let atags := pyRstrip (keepOriginalWs aline atags)
  let btags := pyRstrip (keepOriginalWs bline btags)
  [⟨.del, aline⟩] ++ (if atags ≠ "" then [⟨.hint, atags⟩] else []) ++
    [⟨.add, bline⟩] ++ (if btags ≠ "" then [⟨.hint, btags⟩] else [])

/-- The scan of `_fancy_replace` for the best synchronization pair: it tracks
`best_ratio` (initially `0.74`), the best non-identical pair found so far and
the first identical pair.  The source guards the ratio computation with
`real_quick_ratio()` and `quick_ratio()`; both are upper bounds on `ratio()`,
so the guard chain holds exactly when `ratio() > best_ratio`, which is how it
is modelled. -/
def fancyScan (a : List String) (alo ahi : Nat) (b : List String)
    (blo bhi : Nat) : Ratio × Option (Nat × Nat) × Option (Nat × Nat) :=
  (List.range' blo (bhi - blo)).foldl
    (fun st j =>
      match b.get? j with
      | none => st
      | some bj =>
        (List.range' alo (ahi - alo)).foldl
          (fun (st2 : Ratio × Option (Nat × Nat) × Option (Nat × Nat)) i =>
            match a.get? i with
            | none => st2
            | some ai =>
              if ai = bj then
                (st2.1, st2.2.1, if st2.2.2 = none then some (i, j) else st2.2.2)
              else
                let r := smRatio charJunkCfg ai.toList bj.toList
                if ratioLt st2.1 r then (r, some (i, j), st2.2.2) else st2)
          st)
    (⟨74, 100⟩, none, none)

/-- `Differ._fancy_replace` with `Differ._fancy_helper` inlined as `helper`:
find the most similar line pair (cutoff `0.75`), recursively diff what comes
before it, emit the pair (an equal line when synchronizing on an identical
pair, otherwise through `_qformat`), then recursively diff what comes after.
The fuel bounds the recursion depth; every level strictly shrinks
`(ahi - alo) + (bhi - blo)`, so `a.length + b.length + 1` is always enough.
The `bestPair = none` fallback is unreachable (the ratio exceeds the `0.74`
initial value only together with a recorded pair) and only keeps the model
total. -/
def fancyReplace :
    Nat → List String → Nat → Nat → List String → Nat → Nat → List DiffEntry
  | 0, _, _, _, _, _, _ => []
  | Nat.succ fuel, a, alo, ahi, b, blo, bhi =>
    let helper := fun (alo' ahi' blo' bhi' : Nat) =>
      if alo' < ahi' then
        if blo' < bhi' then fancyReplace fuel a alo' ahi' b blo' bhi'
        else dump .del a alo' ahi'
      else if blo' < bhi' then dump .add b blo' bhi'
      else []
    let scan := fancyScan a alo ahi b blo bhi
    if ratioLt scan.1 ⟨75, 100⟩ then
      match scan.2.2 with
      | none => plainReplace a alo ahi b blo bhi
      | some (ei, ej) =>
        helper alo ei blo ej ++ [⟨.eq, (a.get? ei).getD ""⟩] ++
          helper (ei + 1) ahi (ej + 1) bhi
    else
      match scan.2.1 with
      | none => plainReplace a alo ahi b blo bhi
      | some (bi, bj) =>
        let aelt := (a.get? bi).getD ""
        let belt := (b.get? bj).getD ""
        let tags := intralineTags aelt belt
        helper alo bi blo bj ++ qformat aelt belt tags.1 tags.2 ++
          helper (bi + 1) ahi (bj + 1) bhi

/-- `difflib.ndiff(a, b)` = `Differ(linejunk=None,
charjunk=IS_CHARACTER_JUNK).compare(a, b)`: dispatch on the line-level
opcodes, with `replace` blocks handled by `_fancy_replace`. -/
def ndiff (a b : List String) : List DiffEntry :=
  (opcodes noJunkLine a b).foldl
    (fun acc op =>
      acc ++
        match op.tag with
        | .replace =>
          fancyReplace (a.length + b.length + 1) a op.a1 op.a2 b op.b1 op.b2
        | .del => dump .del a op.a1 op.a2
        | .ins => dump .add b op.b1 op.b2
        | .eq => dump .eq a op.a1 op.a2)
    []

end Difflib


namespace PyRe

/-- Tiny regular-expression AST covering exactly the constructs appearing in
the fixed patterns of `content_comparison.py`: character classes, sequencing,
alternation, greedy counted repetition and the `\b` word-boundary assertion. -/
inductive RE
  | cls (p : Char → Bool)
  | seq (rs : List RE)
  | alt (rs : List RE)
  | rep (r : RE) (lo : Nat) (hi : Option Nat)
  | wb

/-- Python `\w` (ASCII range; the crawled inputs are ASCII). -/
def isWordChar (c : Char) : Bool := c.isAlphanum || c = '_'

/-- Python `str.isspace` / `\s` restricted to ASCII. -/
def pyIsSpace (c : Char) : Bool :=
  c = ' ' || c = '\t' || c = '\n' || c = '\x0b' || c = '\x0c' || c = '\r'

/-- Word-boundary test between the previously consumed character and the head
of the remaining input (out-of-range counts as non-word). -/
def atWb (prev : Option Char) (cs : List Char) : Bool :=
  (match prev with | some c => isWordChar c | none => false) !=
    (match cs.head? with | some c => isWordChar c | none => false)

/-- Backtracking matcher in continuation-passing style, with Python's
leftmost-greedy semantics: alternatives are tried in order, repetitions
prefer one more iteration.  The continuation receives the last consumed
character (for later `\b` tests) and the remaining input.  The fuel bounds
the recursion depth; every step discharges one AST constructor or one
repetition unfolding, so depth is linear in pattern size plus input length. -/
def matchRE :
    Nat → RE → Option Char → List Char →
      (Option Char → List Char → Option (Option Char × List Char)) →
      Option (Option Char × List Char)
  | 0, _, _, _, _ => none
  | Nat.succ _, RE.cls p, _, cs, k =>
    match cs with
    | [] => none
    | c :: rest => if p c then k (some c) rest else none
  | Nat.succ f, RE.seq rs, prev, cs, k =>
    match rs with
    | [] => k prev cs
    | r :: rs =>
      matchRE f r prev cs (fun p2 cs2 => matchRE f (RE.seq rs) p2 cs2 k)
  | Nat.succ f, RE.alt rs, prev, cs, k =>
    match rs with
    | [] => none
    | r :: rs =>
      match matchRE f r prev cs k with
      | some res => some res
      | none => matchRE f (RE.alt rs) prev cs k
  | Nat.succ f, RE.rep r lo hi, prev, cs, k =>
    match lo, hi with
    | 0, some 0 => k prev cs
    | 0, _ =>
      match matchRE f r prev cs
          (fun p2 cs2 => matchRE f (RE.rep r 0 (hi.map (· - 1))) p2 cs2 k) with
      | some res => some res
      | none => k prev cs
    | Nat.succ lo, _ =>
      matchRE f r prev cs
        (fun p2 cs2 => matchRE f (RE.rep r lo (hi.map (· - 1))) p2 cs2 k)
  | Nat.succ _, RE.wb, prev, cs, k => if atWb prev cs then k prev cs else none

/-- The scan of `re.sub`: try a match at every position from left to right and
replace each non-overlapping match (none of the patterns modelled here can
match the empty string; the guard below only keeps the function total).  The
`\b` context of later attempts refers to the original characters, so the last
consumed original character is threaded through.  The accumulator is kept
reversed. -/
def reSubGo (r : RE) (repl : List Char) :
    Nat → Option Char → List Char → List Char → List Char
  | 0, _, cs, acc => acc.reverse ++ cs
  | Nat.succ f, prev, cs, acc =>
    match cs with
    | [] => acc.reverse
    | c :: rest =>
      match matchRE ((cs.length + 2) * 32) r prev cs
          (fun p2 cs2 => some (p2, cs2)) with
      | some (p2, cs2) =>
        if cs2.length < cs.length then
          reSubGo r repl f p2 cs2 (repl.reverse ++ acc)
        else
          reSubGo r repl f (some c) rest (c :: acc)
      | none => reSubGo r repl f (some c) rest (c :: acc)

/-- `re.sub(pattern, repl, s)` for the fixed patterns of this module. -/
def reSub (r : RE) (repl : String) (s : String) : String :=
  String.mk (reSubGo r repl.toList (s.length + 1) none s.toList [])

/-- Literal string pattern. -/
def reLit (s : String) : RE := .seq (s.toList.map (fun c => .cls (fun x => x = c)))

/-- Case-insensitive literal string pattern (`(?i)` on a literal). -/
def reLitCI (s : String) : RE :=
  .seq (s.toList.map (fun c => .cls (fun x => x.toLower = c.toLower)))

/-- Python `str.strip()` (ASCII whitespace). -/
def pyStrip (s : String) : String :=
  String.mk (((s.toList.dropWhile pyIsSpace).reverse.dropWhile pyIsSpace).reverse)

end PyRe

namespace ContentComparison

open PyRe

/-- `\b\d{1,2}/\d{1,2}/\d{2,4}\b` (date-like). -/
def dateRE : RE :=
  .seq [.wb, .rep (.cls Char.isDigit) 1 (some 2), reLit "/",
        .rep (.cls Char.isDigit) 1 (some 2), reLit "/",
        .rep (.cls Char.isDigit) 2 (some 4), .wb]

/-- `\b\d{1,2}:\d{2}(?::\d{2})?\s*(?:AM|PM|am|pm)?\b` (time-like). -/
def timeRE : RE :=
  .seq [.wb, .rep (.cls Char.isDigit) 1 (some 2), reLit ":",
        .rep (.cls Char.isDigit) 2 (some 2),
        .rep (.seq [reLit ":", .rep (.cls Char.isDigit) 2 (some 2)]) 0 (some 1),
        .rep (.cls pyIsSpace) 0 none,
        .rep (.alt [reLit "AM", reLit "PM", reLit "am", reLit "pm"]) 0 (some 1),
        .wb]

/-- `[a-z0-9-]` under `(?i)`. -/
def isSessTokChar (c : Char) : Bool :=
  ('a' ≤ c.toLower && c.toLower ≤ 'z') || c.isDigit || c = '-'

/-- `(?i)sessionid=[a-z0-9-]+`. -/
def sessionidRE : RE := .seq [reLitCI "sessionid=", .rep (.cls isSessTokChar) 1 none]

/-- `(?i)token=[a-z0-9-]+`. -/
def tokenRE : RE := .seq [reLitCI "token=", .rep (.cls isSessTokChar) 1 none]

/-- `\b\d{13}\b` (Unix millisecond timestamps). -/
def timestampRE : RE := .seq [.wb, .rep (.cls Char.isDigit) 13 (some 13), .wb]

/-- `class="[^"]*"`. -/
def classRE : RE :=
  .seq [reLit "class=\"", .rep (.cls (fun c => c ≠ '"')) 0 none, reLit "\""]

/-- `filter_dynamic_content`: the six `re.sub` normalizations, in source
order. -/
def filter_dynamic_content (text : String) : String :=
  let text := reSub dateRE "DATE" text
  let text := reSub timeRE "TIME" text
  let text := reSub sessionidRE "sessionid=REMOVED" text
  let text := reSub tokenRE "token=REMOVED" text
  let text := reSub timestampRE "TIMESTAMP" text
  reSub classRE "class=\"NORMALIZED\"" text

/-- `\s+`. -/
def wsRE : RE := .rep (.cls pyIsSpace) 1 none

/-- `>\s+<`. -/
def tagGapRE : RE := .seq [reLit ">", .rep (.cls pyIsSpace) 1 none, reLit "<"]

/-- `str.replace("\r\n", "\n")`: left-to-right non-overlapping replacement. -/
def replaceCRLF : List Char → List Char
  | [] => []
  | '\r' :: '\n' :: rest => '\n' :: replaceCRLF rest
  | c :: rest => c :: replaceCRLF rest

/-- `normalize_html_whitespace`: collapse whitespace runs, normalize line
endings, drop whitespace between tags, strip. -/
def normalize_html_whitespace (html_content : String) : String :=
  let h := reSub wsRE " " html_content
  let h := String.mk ((replaceCRLF h.toList).map (fun c => if c = '\r' then '\n' else c))
  let h := reSub tagGapRE "><" h
  pyStrip h

/-- The result of `BeautifulSoup(html, "html.parser")` as consumed by this
module: the raw text lines produced by `soup.get_text(separator="\n")` after
removing `script/style/head/title/meta` elements (split by `splitlines()`),
together with the `href` attributes of the `<a href=...>` anchors in document
order.  The HTML parser is the external library boundary; `none` models the
defensively-handled case of the parser raising. -/
structure ParsedDoc where
  textLines : List String
  anchors : List String
deriving DecidableEq, Repr

/-- `extract_visible_text`: strip each raw text line and drop the blank ones;
an exception from the parser is caught and yields `[]`. -/
def extract_visible_text (doc : Option ParsedDoc) : List String :=
  match doc with
  | none => []
  | some d => (d.textLines.map (fun l => pyStrip l)).filter (fun l => decide (l ≠ ""))

/-- `1 - threshold` on fractions. -/
def oneMinus (t : Difflib.Ratio) : Difflib.Ratio := ⟨t.den - t.num, t.den⟩

/-- `is_meaningful_change(old_text, new_text, threshold=0.3)`: when either
side is empty, compare truthiness; otherwise require the
`SequenceMatcher(None, ...)` similarity ratio to fall below `1 - threshold`
(with the default threshold, below `0.7`). -/
def is_meaningful_change (old_text new_text : String)
    (threshold : Difflib.Ratio := ⟨3, 10⟩) : Bool :=
  if old_text = "" || new_text = "" then
    decide (old_text = "") != decide (new_text = "")
  else
    Difflib.ratioLt
      (Difflib.smRatio Difflib.noJunkChar old_text.toList new_text.toList)
      (oneMinus threshold)

/-- The classification loop of `compare_content`: walk the `ndiff` output;
an added line is reported when meaningfully different from some old line; a
deleted line immediately followed by an added line becomes a changed pair
filtered by the ratio of the pair (consuming the added line); a remaining
deleted line is reported when meaningfully different from some new line;
equal and hint lines are skipped. -/
def processDiff (old_lines new_lines : List String) :
    List Difflib.DiffEntry → List String × List String × List String
  | [] => ([], [], [])
  | ⟨.del, t⟩ :: ⟨.add, u⟩ :: rest =>
    let r := processDiff old_lines new_lines rest
    (r.1, r.2.1,
     (if is_meaningful_change t u then
        ["Changed from '" ++ t ++ "' to '" ++ u ++ "'"] else []) ++ r.2.2)
  | ⟨.add, t⟩ :: rest =>
    let r := processDiff old_lines new_lines rest
    ((if old_lines.any (fun o => is_meaningful_change o t) then [t] else []) ++ r.1,
     r.2.1, r.2.2)
  | ⟨.del, t⟩ :: rest =>
    let r := processDiff old_lines new_lines rest
    (r.1,
     (if new_lines.any (fun n => is_meaningful_change t n) then
        ["Deleted: " ++ t] else []) ++ r.2.1,
     r.2.2)
  | _ :: rest => processDiff old_lines new_lines rest

/-- `compare_content(old_content, new_content)`: extract and strip the
visible lines of each parse result, normalize dynamic content per line,
`ndiff` the two line lists and classify.  (The `normalize_html_whitespace`
call of the source runs on the raw HTML strings before the external parse
and is modelled by `normalize_html_whitespace` above; the inputs here are
the parse results.)  Each reported entry models the `new_text` value of the
corresponding `{"new_text": ...}` dictionary of the source. -/
def compare_content (old_content new_content : Option ParsedDoc) :
    List String × List String × List String :=
  let old_lines := (extract_visible_text old_content).map filter_dynamic_content
  let new_lines := (extract_visible_text new_content).map filter_dynamic_content
  processDiff old_lines new_lines (Difflib.ndiff old_lines new_lines)

end ContentComparison

namespace ContentComparison

open PyRe

/-- Scan for the first `"://"` of a URL; returns what follows it. -/
def afterSchemeSep : List Char → Option (List Char)
  | [] => none
  | ':' :: '/' :: '/' :: rest => some rest
  | _ :: rest => afterSchemeSep rest

/-- `urlparse(u).netloc`, modelled for the absolute `scheme://host/...` URLs
this crawler handles (relative references have an empty netloc). -/
def netlocOf (u : String) : String :=
  match afterSchemeSep u.toList with
  | some rest => String.mk (rest.takeWhile (fun c => c ≠ '/' && c ≠ '?' && c ≠ '#'))
  | none => ""

/-- The scheme of an absolute URL (the part before `"://"`). -/
def schemeOf (u : String) : String :=
  String.mk (u.toList.takeWhile (fun c => c ≠ ':'))

/-- A URL without its fragment part. -/
def stripFragment (u : String) : String :=
  String.mk (u.toList.takeWhile (fun c => c ≠ '#'))

/-- A URL without its query and fragment parts. -/
def stripQuery (u : String) : String :=
  String.mk (u.toList.takeWhile (fun c => c ≠ '?' && c ≠ '#'))

/-- The path of an absolute URL: what follows the netloc, up to the query or
fragment. -/
def pathOf (u : String) : String :=
  match afterSchemeSep u.toList with
  | some rest =>
    String.mk ((rest.dropWhile (fun c => c ≠ '/' && c ≠ '?' && c ≠ '#')).takeWhile
      (fun c => c ≠ '?' && c ≠ '#'))
  | none => ""

/-- The directory part of a path: up to and including the last `/` (root when
the path has none). -/
def dirOf (p : String) : String :=
  let d := String.mk ((p.toList.reverse.dropWhile (fun c => c ≠ '/')).reverse)
  if d = "" then "/" else d

/-- `'#' in full_url`: membership of a single character in a string. -/
def containsChar (s : String) (c : Char) : Bool := s.toList.contains c

/-- Python `str.startswith` (string prefix test), stated over the character
lists so that it evaluates inside the kernel. -/
def startsWithStr (s pre : String) : Bool := pre.toList.isPrefixOf s.toList

/-- `urljoin(base, href)`, modelled for the reference shapes arising from
crawled pages: empty href, absolute `scheme://` URLs, protocol-relative
`//...`, absolute paths, fragment-only and query-only references, and plain
relative paths (without `.`/`..` dot-segment normalization, which nothing
below exercises). -/
def urljoin (base href : String) : String :=
  if href = "" then base
  else if (afterSchemeSep href.toList).isSome then href
  else if startsWithStr href "//" then schemeOf base ++ ":" ++ href
  else
    let root := schemeOf base ++ "://" ++ netlocOf base
    if startsWithStr href "/" then root ++ href
    else if startsWithStr href "#" then stripFragment base ++ href
    else if startsWithStr href "?" then stripQuery base ++ href
    else root ++ dirOf (pathOf base) ++ href

/-- `extract_links(page_url, soup, check_prefix)`: resolve each `<a href>`
against the page URL, skipping any resolved URL containing `#`, any URL whose
netloc differs from the page's, and — when the prefix argument is a nonempty
string (Python truthiness of `check_prefix`) — any URL starting with it.  The
survivors form a Python set, modelled as a duplicate-free list in
first-insertion order. -/
def extract_links (page_url : String) (doc : ParsedDoc) (pfx : Option String) :
    List String :=
  doc.anchors.foldl
    (fun links href =>
      let full_url := urljoin page_url (pyStrip href)
      if containsChar full_url '#' then links
      else if netlocOf full_url ≠ netlocOf page_url then links
      else if (match pfx with
        | some p => decide (p ≠ "") && startsWithStr full_url p
        | none => false) then links
      else if full_url ∈ links then links
      else links ++ [full_url])
    []

/-- The link/PDF delta computed by the crawler around `compare_content`
(`crawler.py`, the `links_changes` dictionary): `extract_links` on both
versions, set differences, and the `.pdf` partition of each difference. -/
structure LinksChanges where
  added_links : List String
  removed_links : List String
  added_pdfs : List String
  removed_pdfs : List String
deriving DecidableEq, Repr

/-- `link.lower().endswith(".pdf")`, stated over the character lists so that
it evaluates inside the kernel. -/
def isPdfLink (l : String) : Bool :=
  ".pdf".toList.isSuffixOf (l.toList.map Char.toLower)

/-- The crawler's link-delta computation (`crawler.py` lines 460-473). -/
def links_changes (url : String) (old_doc new_doc : ParsedDoc)
    (pfx : Option String) : LinksChanges :=
  let old_links := extract_links url old_doc pfx
  let new_links := extract_links url new_doc pfx
  let added_links := new_links.filter (fun l => decide (l ∉ old_links))
  let removed_links := old_links.filter (fun l => decide (l ∉ new_links))
  let added_pdfs := added_links.filter isPdfLink
  let removed_pdfs := removed_links.filter isPdfLink
  { added_links := added_links.filter (fun l => decide (l ∉ added_pdfs))
    removed_links := removed_links.filter (fun l => decide (l ∉ removed_pdfs))
    added_pdfs := added_pdfs
    removed_pdfs := removed_pdfs }

/-- Modelled from the spec: the change-detection engine as the spec describes
it — a pure function `compare_content(old_html, new_html) -> (added, deleted,
changed, link_delta)` whose fourth component is the link/PDF delta of the two
versions.  (The spec leaves the page URL and excluded prefix implicit in the
"configured" context; they appear as parameters here.)  This definition
exists only to compare the spec's signature with the source's
`compare_content`, which returns the three text components alone. -/
def compare_content_spec (page_url : String) (old_doc new_doc : ParsedDoc)
    (pfx : Option String) :
    (List String × List String × List String) × LinksChanges :=
  (compare_content (some old_doc) (some new_doc),
   links_changes page_url old_doc new_doc pfx)

end ContentComparison

namespace MongoState

/-- Association-list lookup (Python `dict` access used by the adapter; keys
are unique by construction of the operations below). -/
def mlookup {β : Type} : List (String × β) → String → Option β
  | [], _ => none
  | (k, v) :: rest, u => if k = u then some v else mlookup rest u

/-- Association-list assignment `m[k] = v` (replace the binding when present,
append it otherwise). -/
def mset {β : Type} : List (String × β) → String → β → List (String × β)
  | [], u, v => [(u, v)]
  | (k, w) :: rest, u, v =>
    if k = u then (k, v) :: rest else (k, w) :: mset rest u v

/-- Association-list deletion (`del m[k]`; no-op when absent, which only
arises outside the class invariant of the source). -/
def mdel {β : Type} (m : List (String × β)) (k : String) : List (String × β) :=
  m.filter (fun p => decide (p.1 ≠ k))

/-- `LRUCache`: `data` models the `OrderedDict` (head = least recently used,
tail = most recently used), `timestamps` the insertion-time dict. -/
structure LRUCache (V : Type) where
  max_size : Nat
  ttl_seconds : Int
  data : List (String × V)
  timestamps : List (String × Int)

/-- `LRUCache.get(key)` at wall-clock `now` (`time.time()`): a hit requires
presence and `now - timestamps[key] < ttl_seconds`, and moves the entry to
the most-recently-used end; an expired entry is deleted and misses.  (When
`key` is in `data`, the source reads `timestamps[key]` unconditionally; a
missing timestamp would raise there and is a miss here, a state no operation
of the class produces.) -/
def LRUCache.get {V : Type} (c : LRUCache V) (key : String) (now : Int) :
    Option V × LRUCache V :=
  match mlookup c.data key, mlookup c.timestamps key with
  | some v, some ts =>
    if now - ts < c.ttl_seconds then
      (some v, { c with data := mdel c.data key ++ [(key, v)] })
    else
      (none, { c with data := mdel c.data key, timestamps := mdel c.timestamps key })
  | _, _ => (none, c)

/-- The `while len(self.data) > self.max_size` eviction loop of
`LRUCache.put`: repeatedly drop the oldest entry (the head) and its
timestamp.  The fuel bounds the iterations; the data length is always
enough. -/
def evictLoop {V : Type} (max_size : Nat) :
    Nat → List (String × V) → List (String × Int) →
      List (String × V) × List (String × Int)
  | 0, d, t => (d, t)
  | Nat.succ f, d, t =>
    if max_size < d.length then
      match d with
      | [] => ([], t)
      | (k, _) :: rest => evictLoop max_size f rest (mdel t k)
    else (d, t)

/-- `LRUCache.put(key, value)` at wall-clock `now`: refresh the entry to the
most-recently-used end, stamp its insertion time, then evict
least-recently-used entries while over capacity. -/
def LRUCache.put {V : Type} (c : LRUCache V) (key : String) (v : V)
    (now : Int) : LRUCache V :=
  let data1 := (if (mlookup c.data key).isSome then mdel c.data key else c.data) ++ [(key, v)]
  let ts1 := mset c.timestamps key now
  let ev := evictLoop c.max_size data1.length data1 ts1
  { c with data := ev.1, timestamps := ev.2 }

/-- `LRUCache.invalidate(key)`. -/
def LRUCache.invalidate {V : Type} (c : LRUCache V) (key : String) :
    LRUCache V :=
  if (mlookup c.data key).isSome then
    { c with data := mdel c.data key, timestamps := mdel c.timestamps key }
  else c

/-- The `status` field of a `url_states` document. -/
inductive UrlStatus
  | remaining
  | in_progress
  | visited
deriving DecidableEq, Repr

/-- One `url_states` document of the crawl site (the constant `site_id` of
the adapter instance is left implicit: every query below filters on it).
Optional fields model fields a document may lack. -/
structure UrlRec where
  url : String
  status : UrlStatus
  last_crawled : Option Int
  updated_at : Option Int
  first_seen : Option Int
  rescue_count : Nat
deriving DecidableEq, Repr

/-- The `{"status": "visited", "last_crawled": {"$lt": cutoff}}` recrawl
filter of `get_next_url` (a document lacking `last_crawled` does not match
`$lt`). -/
def eligibleRecrawl (cutoff : Int) (r : UrlRec) : Bool :=
  decide (r.status = .visited) &&
    (match r.last_crawled with
     | some t => decide (t < cutoff)
     | none => false)

/-- The document selected by the first `find_one_and_update` of
`get_next_url` (no sort: the first match in natural collection order). -/
def selRemaining : List UrlRec → Option Nat
  | [] => none
  | r :: rest =>
    if r.status = .remaining then some 0 else (selRemaining rest).map (· + 1)

/-- `last_crawled` of an eligible recrawl candidate (eligibility guarantees
presence; the default is never read). -/
def lcVal (r : UrlRec) : Int := r.last_crawled.getD 0

/-- The document selected by the second `find_one_and_update` of
`get_next_url` (`sort=[("last_crawled", 1)]`): the eligible document with the
smallest `last_crawled`, first in natural order among ties. -/
def selRecrawl (cutoff : Int) : List UrlRec → Option Nat
  | [] => none
  | r :: rest =>
    if eligibleRecrawl cutoff r then
      match selRecrawl cutoff rest with
      | none => some 0
      | some j =>
        match rest.get? j with
        | some r2 => if lcVal r2 < lcVal r then some (j + 1) else some 0
        | none => some 0
    else (selRecrawl cutoff rest).map (· + 1)

/-- The `$set` of both claims in `get_next_url`: `status=in_progress`,
`updated_at=now`, applied to the selected document. -/
def claimAt (now : Int) (db : List UrlRec) (i : Nat) : List UrlRec :=
  match db.get? i with
  | some r => db.set i { r with status := .in_progress, updated_at := some now }
  | none => db

/-- `MongoStateAdapter.get_next_url` at wall-clock `now`: atomically claim a
`remaining` document; otherwise atomically claim the oldest `visited`
document with `last_crawled` older than three days (`timedelta(days=3)` =
259200 seconds); otherwise return nothing.  Each branch is one
`find_one_and_update`, i.e. one atomic state transition; the in-memory
mirror-set bookkeeping of the source is advisory only and not part of the
store state. -/
def get_next_url (now : Int) (db : List UrlRec) : Option String × List UrlRec :=
  match selRemaining db with
  | some i => ((db.get? i).map (fun r => r.url), claimAt now db i)
  | none =>
    match selRecrawl (now - 3 * 86400) db with
    | some i => ((db.get? i).map (fun r => r.url), claimAt now db i)
    | none => (none, db)

/-- The `update_many` filter of `rescue_stuck_urls`: `in_progress` documents
whose `updated_at` is older than the cutoff. -/
def isStuck (cutoff : Int) (r : UrlRec) : Bool :=
  decide (r.status = .in_progress) &&
    (match r.updated_at with
     | some t => decide (t < cutoff)
     | none => false)

/-- `MongoStateAdapter.rescue_stuck_urls(stuck_minutes)` at wall-clock `now`:
bulk-reset every stuck document to `remaining` (stamping `updated_at` and
incrementing `rescue_count`), returning `modified_count` — every matched
document is modified, since its status changes. -/
def rescue_stuck_urls (stuck_minutes : Int) (now : Int) (db : List UrlRec) :
    Nat × List UrlRec :=
  let cutoff := now - stuck_minutes * 60
  (db.countP (fun r => isStuck cutoff r),
   db.map (fun r =>
     if isStuck cutoff r then
       { r with status := .remaining, updated_at := some now,
                rescue_count := r.rescue_count + 1 }
     else r))

/-- The per-URL `status_info` dictionary (`{'status': ..., 'last_success':
..., 'error_count': ...}`) maintained by `update_url_status`. -/
structure StatusInfo where
  status : Int
  last_success : Option Int
  error_count : Nat
deriving DecidableEq, Repr

/-- `update_url_status(url, status_code)` at wall-clock `now`, acting on the
`url_status` map and returning the transient is-deleted signal.  The decision
logic is identical in `MongoStateAdapter.update_url_status` and
`StateManager.update_url_status`; the cache put and batched `status_info`
persistence of the adapter do not feed back into it (the cached read is
unused by the source). -/
def update_url_status (m : List (String × StatusInfo)) (url : String)
    (status_code : Int) (now : Int) : Bool × List (String × StatusInfo) :=
  match mlookup m url with
  | none =>
    (false,
     mset m url
       ⟨status_code, if status_code < 400 then some now else none, 0⟩)
  | some info =>
    if status_code < 400 then
      (false, mset m url ⟨status_code, some now, 0⟩)
    else
      (info.last_success.isSome &&
         (decide (status_code = 404) || decide (status_code = 410) ||
          decide (2 ≤ info.error_count + 1)),
       mset m url ⟨status_code, info.last_success, info.error_count + 1⟩)

/-- The `update_one(..., upsert=True)` performed (via the write batch, or via
the immediate fallback — both submit the same update) by
`MongoStateAdapter.add_visited_url`: set `status=visited`,
`last_crawled=now`, `updated_at=now` on the matching document, inserting the
document when none matches. -/
def add_visited_url (now : Int) (u : String) : List UrlRec → List UrlRec
  | [] => [{ url := u, status := .visited, last_crawled := some now,
             updated_at := some now, first_seen := none, rescue_count := 0 }]
  | r :: rest =>
    if r.url = u then
      { r with status := .visited, last_crawled := some now,
               updated_at := some now } :: rest
    else r :: add_visited_url now u rest

end MongoState

namespace BatchWrite

/-- One operation appended by `_add_to_batch`.  The filter and update
documents are opaque payloads of type `δ`. -/
structure BatchOp (δ : Type) where
  typ : String
  collection : String
  filter_doc : δ
  update_doc : δ
  upsert : Bool
  timestamp : Int
deriving DecidableEq, Repr

/-- One entry of `batch_performance_history`. -/
structure PerfEntry where
  timestamp : Int
  batch_size : Nat
  execution_time : ℚ
  avg_time_per_op : ℚ
  success_rate : ℚ
deriving DecidableEq, Repr

/-- The adapter state touched by the batch-write coordinator. -/
structure BatchState (δ : Type) where
  pending_writes : List (BatchOp δ)
  last_batch_write : Int
  batch_performance_history : List PerfEntry
  batch_size : Nat
  batch_write_interval : ℚ
  min_batch_size : Nat
  max_batch_size : Nat
  min_batch_interval : ℚ
  max_batch_interval : ℚ
  last_performance_check : Int
deriving Repr

/-- Keep the first occurrence of every element, in order (the key order of a
Python dict filled by repeated `setdefault`-style insertion). -/
def firstOccs : List String → List String
  | [] => []
  | c :: rest => c :: (firstOccs (rest.filter (fun x => decide (x ≠ c))))
termination_by l => l.length
decreasing_by
  simp only [List.length_cons]
  exact Nat.lt_succ_of_le (List.length_filter_le _ _)

/-- The per-collection grouping of `_execute_batch_writes`: collections in
first-appearance order, each with its operations in queue order. -/
def groupByColl {δ : Type} (ops : List (BatchOp δ)) :
    List (String × List (BatchOp δ)) :=
  (firstOccs (ops.map (fun op => op.collection))).map
    (fun c => (c, ops.filter (fun op => decide (op.collection = c))))

/-- The `bulk_ops` list built for one collection: only `'update'` operations
become `UpdateOne` objects. -/
def bulkOpsOf {δ : Type} (ops : List (BatchOp δ)) : List (BatchOp δ) :=
  ops.filter (fun op => decide (op.typ = "update"))

/-- `MongoStateAdapter._execute_batch_writes`.  The store's `bulk_write` is
the external fallible call: `raiseAt = some k` models it raising on the
`k`-th collection group (after the groups before it were applied),
`raiseAt = none` a fully successful pass; `dt` models the measured
execution time and `now` the wall clock at completion.  Returns the bulk
operations actually applied to the store alongside the new state: on success
the performance entry is recorded, the pending list cleared and the
last-write stamp reset; on an exception the handler only logs, leaving the
entire state unchanged so the pending operations are retried. -/
def _execute_batch_writes {δ : Type} (raiseAt : Option Nat) (dt : ℚ)
    (now : Int) (st : BatchState δ) : List (BatchOp δ) × BatchState δ :=
  if st.pending_writes.isEmpty then ([], st)
  else
    let groups := (groupByColl st.pending_writes).map
      (fun g => (g.1, bulkOpsOf g.2))
    match raiseAt with
    | some k => ((groups.take k).foldl (fun acc g => acc ++ g.2) [], st)
    | none =>
      let applied := groups.foldl (fun acc g => acc ++ g.2) []
      let total := st.pending_writes.length
      let entry : PerfEntry :=
        { timestamp := now
          batch_size := total
          execution_time := dt
          avg_time_per_op := if total = 0 then 0 else dt / (total : ℚ)
          success_rate := if total = 0 then 0 else (applied.length : ℚ) / (total : ℚ) }
      (applied,
       { st with
           batch_performance_history := st.batch_performance_history ++ [entry],
           pending_writes := [],
           last_batch_write := now })

/-- The trailing slice `l[-k:]` of Python. -/
def lastN {β : Type} (k : Nat) (l : List β) : List β := l.drop (l.length - k)

/-- Rational sum of a list. -/
def sumQ (l : List ℚ) : ℚ := l.foldl (· + ·) 0

/-- `MongoStateAdapter._maybe_adjust_batch_parameters` at wall-clock `now`:
at most every 30 seconds, with at least 3 recorded batches, grow the batch
size and shrink the interval when the last 10 batches were fast and
reliable, or shrink the batch size and grow the interval when they were slow
or unreliable, clamped to the configured bounds; then trim the history.
(Python's `max(batch_size - 25, min_batch_size)` agrees with the truncated
natural subtraction since `min_batch_size` is nonnegative.) -/
def _maybe_adjust_batch_parameters {δ : Type} (now : Int) (st : BatchState δ) :
    BatchState δ :=
  if now - st.last_performance_check < 30 then st
  else
    let st := { st with last_performance_check := now }
    if 3 ≤ st.batch_performance_history.length then
      let recent := lastN 10 st.batch_performance_history
      let n : ℚ := (recent.length : ℚ)
      let avgT := sumQ (recent.map (fun p => p.avg_time_per_op)) / n
      let avgS := sumQ (recent.map (fun p => p.success_rate)) / n
      let st : BatchState δ :=
        if avgT < 1/10 ∧ 95/100 < avgS then
          { st with
              batch_size := min (st.batch_size + 25) st.max_batch_size,
              batch_write_interval :=
                max (st.batch_write_interval - 1/2) st.min_batch_interval }
        else if 1/2 < avgT ∨ avgS < 9/10 then
          { st with
              batch_size := max (st.batch_size - 25) st.min_batch_size,
              batch_write_interval :=
                min (st.batch_write_interval + 1) st.max_batch_interval }
        else st
      if 20 < st.batch_performance_history.length then
        { st with
            batch_performance_history := lastN 15 st.batch_performance_history }
      else st
    else st

/-- `MongoStateAdapter._add_to_batch`: append the operation, maybe adjust the
adaptive parameters, and flush when the queue reached `batch_size` or the
flush interval elapsed. -/
def _add_to_batch {δ : Type} (typ collection : String) (filter_doc update_doc : δ)
    (ups : Bool) (raiseAt : Option Nat) (dt : ℚ) (now : Int)
    (st : BatchState δ) : List (BatchOp δ) × BatchState δ :=
  let op : BatchOp δ := ⟨typ, collection, filter_doc, update_doc, ups, now⟩
  let st := { st with pending_writes := st.pending_writes ++ [op] }
  let st := _maybe_adjust_batch_parameters now st
  if st.batch_size ≤ st.pending_writes.length ∨
      st.batch_write_interval < ((now - st.last_batch_write : Int) : ℚ) then
    _execute_batch_writes raiseAt dt now st
  else ([], st)

end BatchWrite

namespace MongoState

theorem mlookup_mset {β : Type} (m : List (String × β)) (u : String) (v : β) :
    mlookup (mset m u v) u = some v := by
  induction m with
  | nil => simp [mset, mlookup]
  | cons p rest ih =>
    cases p with
    | mk k w =>
      by_cases h : k = u
      · simp [mset, mlookup, h]
      · simp [mset, mlookup, h, ih]

end MongoState

/-- C7: for old content "Price: $10 as of 01/01/2024" and new content
"Price: $10 as of 01/02/2024", both raw strings pass
`normalize_html_whitespace` unchanged, the dynamic-content normalization of
`filter_dynamic_content` replaces both date substrings with the same fixed
`DATE` placeholder, and `compare_content` consequently returns empty added,
deleted and changed lists: a date-only difference is never reported. -/
theorem C7_date_only_difference_not_reported :
    ContentComparison.normalize_html_whitespace "Price: $10 as of 01/01/2024"
        = "Price: $10 as of 01/01/2024" ∧
    ContentComparison.normalize_html_whitespace "Price: $10 as of 01/02/2024"
        = "Price: $10 as of 01/02/2024" ∧
    ContentComparison.filter_dynamic_content "Price: $10 as of 01/01/2024"
        = "Price: $10 as of DATE" ∧
    ContentComparison.filter_dynamic_content "Price: $10 as of 01/02/2024"
        = "Price: $10 as of DATE" ∧
    ContentComparison.compare_content
        (some ⟨["Price: $10 as of 01/01/2024"], []⟩)
        (some ⟨["Price: $10 as of 01/02/2024"], []⟩) = ([], [], []) := by
  refine ⟨?_, ?_, ?_, ?_, ?_⟩ <;> decide

/-- C2: the deleted-page state machine of `update_url_status`.  The first
observation of a URL returns `false` for every status code and only
initializes its `status_info`; a later success (`code < 400`) records the
success time, resets the consecutive error count and returns `false`; a later
failure (`400 ≤ code`) increments the consecutive error count and returns
`true` exactly when the URL had a recorded success and the code is `404` or
`410` or the incremented count reached `2`; a URL that never succeeded keeps
`last_success = none`, so repeated failures on it always return `false`.  The
sequences `200, 500, 500` (giving `false, false, true`) and `500, 500, 500`
from fresh (giving `false, false, false`) are included concretely. -/
theorem C2_deleted_page_state_machine
    (m : List (String × MongoState.StatusInfo)) (url : String)
    (code now : Int) (info : MongoState.StatusInfo) :
    (MongoState.mlookup m url = none →
      (MongoState.update_url_status m url code now).1 = false ∧
      MongoState.mlookup (MongoState.update_url_status m url code now).2 url =
        some ⟨code, if code < 400 then some now else none, 0⟩) ∧
    (MongoState.mlookup m url = some info → code < 400 →
      (MongoState.update_url_status m url code now).1 = false ∧
      MongoState.mlookup (MongoState.update_url_status m url code now).2 url =
        some ⟨code, some now, 0⟩) ∧
    (MongoState.mlookup m url = some info → 400 ≤ code →
      ((MongoState.update_url_status m url code now).1 = true ↔
        info.last_success ≠ none ∧
          (code = 404 ∨ code = 410 ∨ 2 ≤ info.error_count + 1)) ∧
      MongoState.mlookup (MongoState.update_url_status m url code now).2 url =
        some ⟨code, info.last_success, info.error_count + 1⟩) ∧
    (MongoState.mlookup m url = some info → info.last_success = none →
      400 ≤ code →
      (MongoState.update_url_status m url code now).1 = false) ∧
    ((MongoState.update_url_status [] "u" 200 0).1 = false ∧
     (MongoState.update_url_status
        (MongoState.update_url_status [] "u" 200 0).2 "u" 500 1).1 = false ∧
     (MongoState.update_url_status
        (MongoState.update_url_status
          (MongoState.update_url_status [] "u" 200 0).2 "u" 500 1).2
        "u" 500 2).1 = true) ∧
    ((MongoState.update_url_status [] "v" 500 0).1 = false ∧
     (MongoState.update_url_status
        (MongoState.update_url_status [] "v" 500 0).2 "v" 500 1).1 = false ∧
     (MongoState.update_url_status
        (MongoState.update_url_status
          (MongoState.update_url_status [] "v" 500 0).2 "v" 500 1).2
        "v" 500 2).1 = false) := by
  refine ⟨?_, ?_, ?_, ?_, by decide, by decide⟩
  · intro h
    simp [MongoState.update_url_status, h, MongoState.mlookup_mset]
  · intro h hc
    simp [MongoState.update_url_status, h, hc, MongoState.mlookup_mset]
  · intro h hc
    simp [MongoState.update_url_status, h, not_lt.mpr hc,
      MongoState.mlookup_mset, Option.isSome_iff_ne_none, or_assoc]
  · intro h hs hc
    simp [MongoState.update_url_status, h, not_lt.mpr hc, hs]

/-- Witness for C2 at a concrete input: the very first observation of a fresh
URL `"u"` with status 200 returns `false` and records the success time. -/
theorem C2_deleted_page_state_machine_witness :
    (MongoState.update_url_status [] "u" 200 0).1 = false ∧
    MongoState.mlookup (MongoState.update_url_status [] "u" 200 0).2 "u" =
      some ⟨200, if (200 : Int) < 400 then some 0 else none, 0⟩ :=
  (C2_deleted_page_state_machine [] "u" 200 0 ⟨200, none, 0⟩).1 rfl

/-- C3: `rescue_stuck_urls(stuck_minutes)` at wall-clock `now` returns the
number of `in_progress` records whose `updated_at` is older than
`now - stuck_minutes` and resets exactly those back to `remaining` (stamping
`updated_at`, incrementing `rescue_count`), leaving every other record —
including every `in_progress` record updated more recently — unchanged.
Concretely, with `stuck_minutes = 60`, a record updated 61 minutes ago is
returned to `remaining` while one updated 10 minutes ago stays
`in_progress`. -/
theorem C3_rescue_stuck_urls (stuck_minutes now : Int)
    (db : List MongoState.UrlRec) :
    (MongoState.rescue_stuck_urls stuck_minutes now db).1 =
      db.countP (fun r => MongoState.isStuck (now - stuck_minutes * 60) r) ∧
    (MongoState.rescue_stuck_urls stuck_minutes now db).2 =
      db.map (fun r =>
        if MongoState.isStuck (now - stuck_minutes * 60) r then
          { r with status := .remaining, updated_at := some now,
                   rescue_count := r.rescue_count + 1 }
        else r) ∧
    (∀ r, MongoState.isStuck (now - stuck_minutes * 60) r = false →
      (if MongoState.isStuck (now - stuck_minutes * 60) r then
        { r with status := MongoState.UrlStatus.remaining,
                 updated_at := some now,
                 rescue_count := r.rescue_count + 1 }
      else r) = r) ∧
    MongoState.rescue_stuck_urls 60 0
        [⟨"a", .in_progress, none, some (-3660), none, 0⟩,
         ⟨"b", .in_progress, none, some (-600), none, 0⟩] =
      (1, [⟨"a", .remaining, none, some 0, none, 1⟩,
           ⟨"b", .in_progress, none, some (-600), none, 0⟩]) := by
  refine ⟨rfl, rfl, ?_, by decide⟩
  intro r h
  simp [h]

namespace MongoState

theorem mlookup_eq_none {β : Type} (d : List (String × β)) (k : String) :
    mlookup d k = none ↔ ∀ p ∈ d, p.1 ≠ k := by
  induction d with
  | nil => simp [mlookup]
  | cons p rest ih =>
    cases p with
    | mk k2 v2 =>
      by_cases h : k2 = k
      · simp [mlookup, h]
      · simp [mlookup, h, ih]

theorem mem_mdel {β : Type} (d : List (String × β)) (k : String) :
    ∀ p ∈ mdel d k, p.1 ≠ k := by
  intro p hp
  have := List.of_mem_filter hp
  simpa using this

theorem mlookup_mdel_ne {β : Type} (d : List (String × β)) (k2 k : String)
    (h : k2 ≠ k) : mlookup (mdel d k2) k = mlookup d k := by
  induction d with
  | nil => rfl
  | cons p rest ih =>
    cases p with
    | mk kp vp =>
      by_cases hp : kp = k2
      · have hkpk : kp ≠ k := by rw [hp]; exact h
        have h1 : mdel ((kp, vp) :: rest) k2 = mdel rest k2 := by
          simp [mdel, List.filter_cons, hp]
        have h2 : mlookup ((kp, vp) :: rest) k = mlookup rest k := by
          simp [mlookup, hkpk]
        rw [h1, ih, h2]
      · have h1 : mdel ((kp, vp) :: rest) k2 = (kp, vp) :: mdel rest k2 := by
          simp [mdel, List.filter_cons, hp]
        rw [h1]
        by_cases hpk : kp = k
        · simp [mlookup, hpk]
        · simp [mlookup, hpk, ih]

theorem mlookup_append_last {β : Type} (d : List (String × β)) (k : String)
    (v : β) (h : ∀ p ∈ d, p.1 ≠ k) : mlookup (d ++ [(k, v)]) k = some v := by
  induction d with
  | nil => simp [mlookup]
  | cons p rest ih =>
    cases p with
    | mk kp vp =>
      have hkp : kp ≠ k := h (kp, vp) (by simp)
      simp only [List.cons_append, mlookup, if_neg hkp]
      exact ih (fun p hp => h p (by simp [hp]))

theorem evictLoop_length {V : Type} (m : Nat) :
    ∀ (fuel : Nat) (d : List (String × V)) (t : List (String × Int)),
      d.length ≤ fuel → ((evictLoop m fuel d t).1).length ≤ m := by
  intro fuel
  induction fuel with
  | zero =>
    intro d t h
    have : d = [] := List.length_eq_zero.mp (Nat.le_zero.mp h)
    subst this
    simp [evictLoop]
  | succ f ih =>
    intro d t h
    by_cases hlen : m < d.length
    · cases d with
      | nil => simp at hlen
      | cons p rest =>
        cases p with
        | mk kp vp =>
          simp only [evictLoop, if_pos hlen]
          exact ih rest _ (Nat.le_of_succ_le_succ h)
    · simp only [evictLoop, if_neg hlen]
      exact Nat.le_of_not_lt hlen

theorem evictLoop_keeps_last {V : Type} (m : Nat) (hm : 1 ≤ m) (k : String)
    (v : V) :
    ∀ (fuel : Nat) (d : List (String × V)) (t : List (String × Int)),
      (∀ p ∈ d, p.1 ≠ k) →
      mlookup ((evictLoop m fuel (d ++ [(k, v)]) t).1) k = some v ∧
      mlookup ((evictLoop m fuel (d ++ [(k, v)]) t).2) k = mlookup t k := by
  intro fuel
  induction fuel with
  | zero =>
    intro d t h
    exact ⟨mlookup_append_last d k v h, rfl⟩
  | succ f ih =>
    intro d t h
    by_cases hlen : m < (d ++ [(k, v)]).length
    · cases d with
      | nil =>
        exfalso
        simp at hlen
        omega
      | cons p rest =>
        cases p with
        | mk kp vp =>
          have hkp : kp ≠ k := h (kp, vp) (by simp)
          have hrest : ∀ p ∈ rest, p.1 ≠ k := fun p hp => h p (by simp [hp])
          have hrec := ih rest (mdel t kp) hrest
          have hstep :
              evictLoop m (Nat.succ f) (((kp, vp) :: rest) ++ [(k, v)]) t =
                evictLoop m f (rest ++ [(k, v)]) (mdel t kp) := by
            simp only [List.cons_append, evictLoop]
            rw [if_pos (by simpa using hlen)]
          rw [hstep]
          exact ⟨hrec.1, hrec.2.trans (mlookup_mdel_ne t kp k hkp)⟩
    · have hstep : evictLoop m (Nat.succ f) (d ++ [(k, v)]) t =
          (d ++ [(k, v)], t) := by
        simp only [evictLoop]
        rw [if_neg hlen]
      rw [hstep]
      exact ⟨mlookup_append_last d k v h, rfl⟩

end MongoState

/-- C8: the LRU cache.  `get(k)` returns the stored value exactly when `k` is
present and its age is below the TTL, re-promoting the entry to the
most-recently-used end on a hit; `put(k, v)` inserts or updates and evicts
least-recently-used entries, so the cache never holds more than `max_size`
entries; `put(k, v)` followed by `get(k)` within the TTL returns `v` (for a
cache with capacity at least 1), and after the TTL has elapsed `get(k)` is a
miss. -/
theorem C8_lru_cache {V : Type} (c : MongoState.LRUCache V) (k : String)
    (v w : V) (t0 t1 now : Int) :
    ((c.get k now).1 = some v ↔
      MongoState.mlookup c.data k = some v ∧
        ∃ ts, MongoState.mlookup c.timestamps k = some ts ∧
          now - ts < c.ttl_seconds) ∧
    ((c.get k now).1 = some v →
      (c.get k now).2.data = MongoState.mdel c.data k ++ [(k, v)]) ∧
    ((c.put k w t0).data.length ≤ c.max_size) ∧
    (1 ≤ c.max_size → t1 - t0 < c.ttl_seconds →
      ((c.put k w t0).get k t1).1 = some w) ∧
    (c.ttl_seconds ≤ t1 - t0 → ((c.put k w t0).get k t1).1 = none) := by
  have hpre : ∀ p ∈ (if (MongoState.mlookup c.data k).isSome then
      MongoState.mdel c.data k else c.data), p.1 ≠ k := by
    split
    · exact MongoState.mem_mdel c.data k
    · next hns =>
      exact (MongoState.mlookup_eq_none c.data k).mp
        (Option.not_isSome_iff_eq_none.mp hns)
  refine ⟨?_, ?_, ?_, ?_, ?_⟩
  · unfold MongoState.LRUCache.get
    cases hd : MongoState.mlookup c.data k with
    | none => simp [hd]
    | some v2 =>
      cases ht : MongoState.mlookup c.timestamps k with
      | none => simp [ht]
      | some ts =>
        by_cases hfresh : now - ts < c.ttl_seconds
        · simp [hd, ht, hfresh]
        · simp [hd, ht, hfresh]
  · unfold MongoState.LRUCache.get
    cases hd : MongoState.mlookup c.data k with
    | none => simp
    | some v2 =>
      cases ht : MongoState.mlookup c.timestamps k with
      | none => simp
      | some ts =>
        by_cases hfresh : now - ts < c.ttl_seconds
        · simp only [if_pos hfresh]
          intro hv
          simp only [Option.some.injEq] at hv
          subst hv
          rfl
        · simp [if_neg hfresh]
  · simp only [MongoState.LRUCache.put]
    exact MongoState.evictLoop_length c.max_size _ _ _ (Nat.le_refl _)
  · intro hm hfresh
    have hkl := MongoState.evictLoop_keeps_last c.max_size hm k w
      (((if (MongoState.mlookup c.data k).isSome then MongoState.mdel c.data k
         else c.data) ++ [(k, w)]).length)
      (if (MongoState.mlookup c.data k).isSome then MongoState.mdel c.data k
       else c.data)
      (MongoState.mset c.timestamps k t0) hpre
    have hts := hkl.2.trans (MongoState.mlookup_mset c.timestamps k t0)
    simp only [MongoState.LRUCache.put, MongoState.LRUCache.get]
    rw [hkl.1, hts]
    simp [hfresh]
  · intro hexp
    rcases Nat.eq_zero_or_pos c.max_size with hms | hm
    · have hbound := MongoState.evictLoop_length (V := V) c.max_size
        (((if (MongoState.mlookup c.data k).isSome then MongoState.mdel c.data k
           else c.data) ++ [(k, w)]).length)
        ((if (MongoState.mlookup c.data k).isSome then MongoState.mdel c.data k
          else c.data) ++ [(k, w)])
        (MongoState.mset c.timestamps k t0) (Nat.le_refl _)
      have hlen0 : ((MongoState.evictLoop (V := V) c.max_size
          (((if (MongoState.mlookup c.data k).isSome then MongoState.mdel c.data k
             else c.data) ++ [(k, w)]).length)
          ((if (MongoState.mlookup c.data k).isSome then MongoState.mdel c.data k
            else c.data) ++ [(k, w)])
          (MongoState.mset c.timestamps k t0)).1).length = 0 := by omega
      have hnil := List.length_eq_zero.mp hlen0
      simp only [MongoState.LRUCache.put, MongoState.LRUCache.get]
      rw [hnil]
      simp [MongoState.mlookup]
    · have hkl := MongoState.evictLoop_keeps_last c.max_size hm k w
        (((if (MongoState.mlookup c.data k).isSome then MongoState.mdel c.data k
           else c.data) ++ [(k, w)]).length)
        (if (MongoState.mlookup c.data k).isSome then MongoState.mdel c.data k
         else c.data)
        (MongoState.mset c.timestamps k t0) hpre
      have hts := hkl.2.trans (MongoState.mlookup_mset c.timestamps k t0)
      simp only [MongoState.LRUCache.put, MongoState.LRUCache.get]
      rw [hkl.1, hts]
      simp [not_lt.mpr hexp]

/-- Witness for C8 at a concrete cache: capacity 2, TTL 10; `put("k", 5)` at
time 0, `get("k")` at time 3 hits with 5, `get("k")` at time 12 misses, and
the size bound holds. -/
theorem C8_lru_cache_witness :
    (((⟨2, 10, [], []⟩ : MongoState.LRUCache Nat).put "k" 5 0).get "k" 3).1 =
        some 5 ∧
    (((⟨2, 10, [], []⟩ : MongoState.LRUCache Nat).put "k" 5 0).get "k" 12).1 =
        none ∧
    ((⟨2, 10, [], []⟩ : MongoState.LRUCache Nat).put "k" 5 0).data.length ≤ 2 :=
  ⟨(C8_lru_cache ⟨2, 10, [], []⟩ "k" 5 5 0 3 0).2.2.2.1 (by decide) (by decide),
   (C8_lru_cache ⟨2, 10, [], []⟩ "k" 5 5 0 12 0).2.2.2.2 (by decide),
   (C8_lru_cache ⟨2, 10, [], []⟩ "k" 5 5 0 3 0).2.2.1⟩

namespace MongoState

/-- Core properties of one `add_visited_url` upsert on a collection whose
unique `(site_id, url)` index admits at most one record per URL. -/
theorem add_visited_url_props (t : Int) (u : String) :
    ∀ db : List UrlRec, db.countP (fun r => decide (r.url = u)) ≤ 1 →
      (add_visited_url t u db).countP (fun r => decide (r.url = u)) = 1 ∧
      (add_visited_url t u db).length =
        db.length +
          (if db.countP (fun r => decide (r.url = u)) = 0 then 1 else 0) ∧
      (∀ r ∈ add_visited_url t u db, r.url = u →
        r.status = .visited ∧ r.last_crawled = some t ∧
          r.updated_at = some t) ∧
      (∀ r ∈ add_visited_url t u db, r.url ≠ u → r ∈ db) := by
  intro db
  induction db with
  | nil =>
    intro _
    refine ⟨by simp [add_visited_url], by simp [add_visited_url], ?_, ?_⟩
    · intro r hr _
      simp [add_visited_url] at hr
      subst hr
      exact ⟨rfl, rfl, rfl⟩
    · intro r hr hne
      simp [add_visited_url] at hr
      simp [hr] at hne
  | cons r0 rest ih =>
    intro hcnt
    by_cases h0 : r0.url = u
    · have hrest0 : rest.countP (fun r => decide (r.url = u)) = 0 := by
        rw [List.countP_cons] at hcnt
        simp only [h0, decide_True, if_pos] at hcnt
        omega
      have hcnt_ne : (r0 :: rest).countP (fun r => decide (r.url = u)) ≠ 0 := by
        rw [List.countP_cons]
        simp [h0]
      refine ⟨?_, ?_, ?_, ?_⟩
      · simp [add_visited_url, h0, List.countP_cons, hrest0]
      · simp [add_visited_url, h0, hcnt_ne]
      · intro r hr _
        simp only [add_visited_url, if_pos h0, List.mem_cons] at hr
        rcases hr with hr | hr
        · subst hr
          exact ⟨rfl, rfl, rfl⟩
        · have hner := (List.countP_eq_zero).mp hrest0 r hr
          simp at hner
          exact absurd (by assumption) hner
      · intro r hr hne
        simp only [add_visited_url, if_pos h0, List.mem_cons] at hr
        rcases hr with hr | hr
        · subst hr
          simp [h0] at hne
        · exact List.mem_cons_of_mem _ hr
    · have hcnt' : rest.countP (fun r => decide (r.url = u)) ≤ 1 := by
        rw [List.countP_cons] at hcnt
        omega
      obtain ⟨ih1, ih2, ih3, ih4⟩ := ih hcnt'
      refine ⟨?_, ?_, ?_, ?_⟩
      · simp [add_visited_url, h0, List.countP_cons, ih1]
      · by_cases hz : rest.countP (fun r => decide (r.url = u)) = 0
        · simp [add_visited_url, h0, List.countP_cons, ih2, hz]
        · simp [add_visited_url, h0, List.countP_cons, ih2, hz]
      · intro r hr he
        simp only [add_visited_url, if_neg h0, List.mem_cons] at hr
        rcases hr with hr | hr
        · subst hr
          exact absurd he h0
        · exact ih3 r hr he
      · intro r hr hne
        simp only [add_visited_url, if_neg h0, List.mem_cons] at hr
        rcases hr with hr | hr
        · subst hr
          exact List.mem_cons_self _ _
        · exact List.mem_cons_of_mem _ (ih4 r hr hne)

end MongoState

/-- C9: `add_visited_url(u)` is an idempotent upsert: on a collection holding
at most one record for `u` (as guaranteed by the unique `(site_id, url)`
index), calling it twice in sequence leaves exactly one record keyed by `u`,
with `status = visited` and `last_crawled` set (to the second call's clock);
the second call creates no additional record and does not change the status
away from `visited`. -/
theorem C9_add_visited_url_idempotent (db : List MongoState.UrlRec)
    (u : String) (t1 t2 : Int)
    (h : db.countP (fun r => decide (r.url = u)) ≤ 1) :
    (MongoState.add_visited_url t2 u
        (MongoState.add_visited_url t1 u db)).countP
        (fun r => decide (r.url = u)) = 1 ∧
    (MongoState.add_visited_url t2 u
        (MongoState.add_visited_url t1 u db)).length =
      (MongoState.add_visited_url t1 u db).length ∧
    ∀ r ∈ MongoState.add_visited_url t2 u
        (MongoState.add_visited_url t1 u db), r.url = u →
      r.status = .visited ∧ r.last_crawled = some t2 ∧
        r.updated_at = some t2 := by
  obtain ⟨h1, -, -, -⟩ := MongoState.add_visited_url_props t1 u db h
  obtain ⟨g1, g2, g3, -⟩ := MongoState.add_visited_url_props t2 u
    (MongoState.add_visited_url t1 u db) (le_of_eq h1)
  refine ⟨g1, ?_, fun r hr he => g3 r hr he⟩
  rw [g2, h1]
  simp

/-- Witness for C9 on the empty collection: two upserts of `"u"` leave one
record, the second creating none. -/
theorem C9_add_visited_url_idempotent_witness :
    (MongoState.add_visited_url 2 "u"
        (MongoState.add_visited_url 1 "u" [])).countP
        (fun r => decide (r.url = "u")) = 1 ∧
    (MongoState.add_visited_url 2 "u"
        (MongoState.add_visited_url 1 "u" [])).length =
      (MongoState.add_visited_url 1 "u" []).length ∧
    ∀ r ∈ MongoState.add_visited_url 2 "u"
        (MongoState.add_visited_url 1 "u" []), r.url = "u" →
      r.status = .visited ∧ r.last_crawled = some 2 ∧
        r.updated_at = some 2 :=
  C9_add_visited_url_idempotent [] "u" 1 2 (by decide)

namespace BatchWrite

theorem mem_firstOccs (x : String) : ∀ l : List String, x ∈ l → x ∈ firstOccs l := by
  have key : ∀ n (l : List String), l.length ≤ n → x ∈ l → x ∈ firstOccs l := by
    intro n
    induction n with
    | zero =>
      intro l hl hx
      rw [List.length_eq_zero.mp (Nat.le_zero.mp hl)] at hx
      cases hx
    | succ n ih =>
      intro l hl hx
      cases l with
      | nil => cases hx
      | cons c rest =>
        simp only [firstOccs]
        rcases List.mem_cons.mp hx with rfl | hx2
        · exact List.mem_cons_self _ _
        · by_cases hc : x = c
          · subst hc
            exact List.mem_cons_self _ _
          · refine List.mem_cons_of_mem _ (ih _ ?_ ?_)
            · exact le_trans (List.length_filter_le _ _)
                (by simpa using Nat.le_of_succ_le_succ hl)
            · exact List.mem_filter.mpr ⟨hx2, by simp [hc]⟩
  exact fun l => key l.length l (le_refl _)

theorem foldl_append_start {β : Type} (gs : List (String × List β)) :
    ∀ acc : List β,
      gs.foldl (fun a g => a ++ g.2) acc =
        acc ++ gs.foldl (fun a g => a ++ g.2) [] := by
  induction gs with
  | nil => intro acc; simp
  | cons g rest ih =>
    intro acc
    simp only [List.foldl_cons]
    rw [ih (acc ++ g.2), ih ([] ++ g.2)]
    simp

theorem mem_foldl_append {β : Type} (gs : List (String × List β)) (b : β) :
    (∃ g ∈ gs, b ∈ g.2) → b ∈ gs.foldl (fun a g => a ++ g.2) [] := by
  induction gs with
  | nil => rintro ⟨g, hg, -⟩; cases hg
  | cons g rest ih =>
    rintro ⟨g2, hg2, hb⟩
    simp only [List.foldl_cons]
    rw [foldl_append_start rest ([] ++ g.2)]
    rcases List.mem_cons.mp hg2 with rfl | h2
    · simp [hb]
    · simp [ih ⟨g2, h2, hb⟩]

end BatchWrite

/-- C10: batch-flush failure is atomic with respect to the pending-write
queue.  When the pending batch is nonempty and executing it raises (at any
collection group), `_execute_batch_writes` leaves the whole adapter state —
in particular the pending-operations list and the last-flush timestamp —
unchanged, so every queued operation is retried at the next flush; a
successful flush applies every queued `'update'` operation, clears the
pending list and resets the last-flush timestamp; an empty queue is a
no-op. -/
theorem C10_batch_flush_atomicity {δ : Type} (st : BatchWrite.BatchState δ)
    (k : Nat) (dt : ℚ) (now : Int) :
    (st.pending_writes ≠ [] →
      (BatchWrite._execute_batch_writes (some k) dt now st).2 = st) ∧
    (st.pending_writes ≠ [] →
      (BatchWrite._execute_batch_writes none dt now st).2.pending_writes = [] ∧
      (BatchWrite._execute_batch_writes none dt now st).2.last_batch_write
          = now ∧
      ∀ op ∈ st.pending_writes, op.typ = "update" →
        op ∈ (BatchWrite._execute_batch_writes none dt now st).1) ∧
    (st.pending_writes = [] →
      BatchWrite._execute_batch_writes (some k) dt now st = ([], st) ∧
      BatchWrite._execute_batch_writes none dt now st = ([], st)) := by
  refine ⟨?_, ?_, ?_⟩
  · intro hne
    have hie : st.pending_writes.isEmpty = false := by
      cases h : st.pending_writes with
      | nil => exact absurd h hne
      | cons a l => rfl
    simp [BatchWrite._execute_batch_writes, hie]
  · intro hne
    have hie : st.pending_writes.isEmpty = false := by
      cases h : st.pending_writes with
      | nil => exact absurd h hne
      | cons a l => rfl
    refine ⟨by simp [BatchWrite._execute_batch_writes, hie],
      by simp [BatchWrite._execute_batch_writes, hie], ?_⟩
    intro op hop hty
    simp only [BatchWrite._execute_batch_writes, hie, Bool.false_eq_true,
      if_false]
    apply BatchWrite.mem_foldl_append
    refine ⟨(op.collection,
      BatchWrite.bulkOpsOf
        (st.pending_writes.filter (fun o => decide (o.collection = op.collection)))),
      ?_, ?_⟩
    · simp only [BatchWrite.groupByColl, List.map_map, List.mem_map,
        Function.comp]
      exact ⟨op.collection,
        BatchWrite.mem_firstOccs op.collection _
          (List.mem_map_of_mem _ hop), rfl⟩
    · exact List.mem_filter.mpr
        ⟨List.mem_filter.mpr ⟨hop, by simp⟩, by simp [hty]⟩
  · intro he
    have hie : st.pending_writes.isEmpty = true := by simp [he]
    exact ⟨by simp [BatchWrite._execute_batch_writes, hie],
           by simp [BatchWrite._execute_batch_writes, hie]⟩

/-- Witness for C10 on a one-operation queue: a raising flush changes
nothing; a successful flush clears the queue and stamps the flush time. -/
theorem C10_batch_flush_atomicity_witness :
    (BatchWrite._execute_batch_writes (some 0) 1 99
        (⟨[⟨"update", "url_states", (), (), true, 0⟩], 5, [], 100, 5,
          50, 500, 1, 30, 0⟩ : BatchWrite.BatchState Unit)).2 =
      ⟨[⟨"update", "url_states", (), (), true, 0⟩], 5, [], 100, 5,
        50, 500, 1, 30, 0⟩ ∧
    (BatchWrite._execute_batch_writes none 1 99
        (⟨[⟨"update", "url_states", (), (), true, 0⟩], 5, [], 100, 5,
          50, 500, 1, 30, 0⟩ : BatchWrite.BatchState Unit)).2.pending_writes =
      [] ∧
    (BatchWrite._execute_batch_writes none 1 99
        (⟨[⟨"update", "url_states", (), (), true, 0⟩], 5, [], 100, 5,
          50, 500, 1, 30, 0⟩ :
            BatchWrite.BatchState Unit)).2.last_batch_write = 99 :=
  ⟨(C10_batch_flush_atomicity _ 0 1 99).1 (by simp),
   ((C10_batch_flush_atomicity _ 0 1 99).2.1 (by simp)).1,
   ((C10_batch_flush_atomicity _ 0 1 99).2.1 (by simp)).2.1⟩

namespace Difflib

variable {α : Type} [DecidableEq α]

theorem b2jGet_nil (cfg : Cfg α) (x : α) : b2jGet cfg [] x = [] := by
  simp [b2jGet]

theorem foldl_fst_const {σ τ : Type} (f : σ × τ → Nat → σ × τ)
    (hf : ∀ st i, (f st i).1 = st.1) :
    ∀ (is : List Nat) (st : σ × τ), (is.foldl f st).1 = st.1 := by
  intro is
  induction is with
  | nil => intro st; rfl
  | cons i rest ih => intro st; rw [List.foldl_cons, ih, hf]

theorem flmDict_nil_right (cfg : Cfg α) (a : List α) (alo ahi blo bhi : Nat) :
    flmDict cfg a [] alo ahi blo bhi = (alo, blo, 0) := by
  simp only [flmDict]
  refine foldl_fst_const _ (fun st i => ?_) _ _
  cases h : a.get? i <;> simp [h, b2jGet_nil]

theorem flmDict_nil_left (cfg : Cfg α) (b : List α) (alo ahi blo bhi : Nat) :
    flmDict cfg [] b alo ahi blo bhi = (alo, blo, 0) := by
  simp only [flmDict]
  refine foldl_fst_const _ (fun st i => ?_) _ _
  simp

theorem elemsEq_nil_right (a : List α) (i j : Nat) :
    elemsEq a i ([] : List α) j = false := by
  unfold elemsEq
  cases a.get? i <;> rfl

theorem elemsEq_nil_left (b : List α) (i j : Nat) :
    elemsEq ([] : List α) i b j = false := by
  unfold elemsEq
  cases b.get? j <;> rfl

theorem extendLo_id (ok : Nat → Nat → Bool) (bi bj bs : Nat)
    (h : ok bi bj = false) :
    ∀ f, extendLo ok f (bi, bj, bs) = (bi, bj, bs) := by
  intro f
  cases f with
  | zero => rfl
  | succ f => simp [extendLo, h]

theorem extendHi_id (ok : Nat → Nat → Nat → Bool) (bi bj bs : Nat)
    (h : ok bi bj bs = false) :
    ∀ f, extendHi ok f (bi, bj, bs) = (bi, bj, bs) := by
  intro f
  cases f with
  | zero => rfl
  | succ f => simp [extendHi, h]

theorem flm_nil_right (cfg : Cfg α) (a : List α) (alo ahi blo bhi : Nat) :
    flm cfg a [] alo ahi blo bhi = (alo, blo, 0) := by
  simp [flm, flmDict_nil_right, extendLo_id, extendHi_id, elemsEq_nil_right]

theorem flm_nil_left (cfg : Cfg α) (b : List α) (alo ahi blo bhi : Nat) :
    flm cfg [] b alo ahi blo bhi = (alo, blo, 0) := by
  simp [flm, flmDict_nil_left, extendLo_id, extendHi_id, elemsEq_nil_left]

theorem blocksAux_nil_right (cfg : Cfg α) (a : List α) :
    ∀ (f alo ahi blo bhi : Nat), blocksAux cfg a [] f alo ahi blo bhi = [] := by
  intro f alo ahi blo bhi
  cases f with
  | zero => rfl
  | succ f => simp [blocksAux, flm_nil_right]

theorem blocksAux_nil_left (cfg : Cfg α) (b : List α) :
    ∀ (f alo ahi blo bhi : Nat), blocksAux cfg [] b f alo ahi blo bhi = [] := by
  intro f alo ahi blo bhi
  cases f with
  | zero => rfl
  | succ f => simp [blocksAux, flm_nil_left]

theorem matchingBlocks_nil_right (cfg : Cfg α) (a : List α) :
    matchingBlocks cfg a [] = [⟨a.length, 0, 0⟩] := by
  simp [matchingBlocks, blocksAux_nil_right, collapse]

theorem matchingBlocks_nil_left (cfg : Cfg α) (b : List α) :
    matchingBlocks cfg [] b = [⟨0, b.length, 0⟩] := by
  simp [matchingBlocks, blocksAux_nil_left, collapse]

theorem opcodes_nil_right_cons (cfg : Cfg α) (x : α) (rest : List α) :
    opcodes cfg (x :: rest) [] =
      [⟨OTag.del, 0, (x :: rest).length, 0, 0⟩] := by
  unfold opcodes
  rw [matchingBlocks_nil_right]
  simp [opcodesFrom]

theorem opcodes_nil_left_cons (cfg : Cfg α) (x : α) (rest : List α) :
    opcodes cfg [] (x :: rest) =
      [⟨OTag.ins, 0, 0, 0, (x :: rest).length⟩] := by
  unfold opcodes
  rw [matchingBlocks_nil_left]
  simp [opcodesFrom]

theorem ndiff_nil_left (b : List String) :
    ndiff [] b = b.map (fun s => ⟨DTag.add, s⟩) := by
  cases b with
  | nil => rfl
  | cons x rest =>
    unfold ndiff
    rw [opcodes_nil_left_cons]
    simp [dump]

theorem ndiff_nil_right (a : List String) :
    ndiff a [] = a.map (fun s => ⟨DTag.del, s⟩) := by
  cases a with
  | nil => rfl
  | cons x rest =>
    unfold ndiff
    rw [opcodes_nil_right_cons]
    simp [dump]

end Difflib

namespace ContentComparison

theorem processDiff_map_add (nl : List String) :
    ∀ L : List String,
      processDiff [] nl (L.map (fun s => ⟨Difflib.DTag.add, s⟩)) =
        ([], [], []) := by
  intro L
  induction L with
  | nil => rfl
  | cons s rest ih => simp [processDiff, ih]

theorem processDiff_map_del (ol : List String) :
    ∀ L : List String,
      processDiff ol [] (L.map (fun s => ⟨Difflib.DTag.del, s⟩)) =
        ([], [], []) := by
  intro L
  induction L with
  | nil => rfl
  | cons s rest ih =>
    cases rest with
    | nil => simp [processDiff]
    | cons s2 rest2 => simp [processDiff] at ih ⊢; exact ih

end ContentComparison

/-- C6: `compare_content` is a total pure function of its parse results; when
an input cannot be parsed (the parser raised, modelled by `none`), it
degrades to extracting no visible text and returns empty added, deleted and
changed lists instead of propagating an error, whatever the other input is. -/
theorem C6_malformed_input_degrades (x : Option ContentComparison.ParsedDoc) :
    ContentComparison.compare_content none x = ([], [], []) ∧
    ContentComparison.compare_content x none = ([], [], []) := by
  constructor
  · show ContentComparison.processDiff _ _ _ = ([], [], [])
    rw [show ContentComparison.extract_visible_text none = [] from rfl]
    rw [List.map_nil, Difflib.ndiff_nil_left]
    exact ContentComparison.processDiff_map_add _ _
  · show ContentComparison.processDiff _ _ _ = ([], [], [])
    rw [show ContentComparison.extract_visible_text none = [] from rfl]
    rw [List.map_nil, Difflib.ndiff_nil_right]
    exact ContentComparison.processDiff_map_del _ _

/-- C4, counterexample to the claim as stated: with old lines
`["alpha", "zzz"]` and new lines `["alpha", "alpha 2", "zzz"]`, the added
line `"alpha 2"` is a near-duplicate of the old line `"alpha"` (their
dissimilarity does not exceed 30%: `is_meaningful_change` is `false`), yet
`compare_content` reports it as an addition — because the addition filter
keeps any added line that is meaningfully different from SOME old line (here
`"zzz"`), not from its near-duplicate counterpart.  So candidate changes are
not "discarded unless their dissimilarity exceeds 30%", and near-duplicate
lines can be reported. -/
theorem C4_meaningful_filter_counterexample :
    ContentComparison.compare_content
        (some ⟨["alpha", "zzz"], []⟩)
        (some ⟨["alpha", "alpha 2", "zzz"], []⟩) = (["alpha 2"], [], []) ∧
    ContentComparison.is_meaningful_change "alpha" "alpha 2" = false := by
  constructor <;> decide

/-- C4, amended: `compare_content` diffs the normalized line lists with
`ndiff` and classifies the output as follows.  A line present only in the new
version (`+ `) is a candidate addition, kept exactly when it is meaningfully
different (dissimilarity over 30%) from at least one old line; a deleted line
(`- `) immediately followed by an added line is merged into a single changed
pair, kept exactly when the pair's dissimilarity exceeds 30%; any other
deleted line is a candidate deletion, kept exactly when meaningfully
different from at least one new line; equal and hint lines are skipped.  The
meaningful-change test compares the `SequenceMatcher` ratio with `0.7` (and
empty strings by truthiness). -/
theorem C4_line_diff_classification_amended
    (o n : ContentComparison.ParsedDoc) (ol nl : List String) (t u : String)
    (rest : List Difflib.DiffEntry) :
    ContentComparison.compare_content (some o) (some n) =
      ContentComparison.processDiff
        ((ContentComparison.extract_visible_text (some o)).map
          ContentComparison.filter_dynamic_content)
        ((ContentComparison.extract_visible_text (some n)).map
          ContentComparison.filter_dynamic_content)
        (Difflib.ndiff
          ((ContentComparison.extract_visible_text (some o)).map
            ContentComparison.filter_dynamic_content)
          ((ContentComparison.extract_visible_text (some n)).map
            ContentComparison.filter_dynamic_content)) ∧
    ContentComparison.processDiff ol nl [] = ([], [], []) ∧
    ContentComparison.processDiff ol nl (⟨.add, t⟩ :: rest) =
      ((if ol.any (fun o2 => ContentComparison.is_meaningful_change o2 t)
        then [t] else []) ++ (ContentComparison.processDiff ol nl rest).1,
       (ContentComparison.processDiff ol nl rest).2.1,
       (ContentComparison.processDiff ol nl rest).2.2) ∧
    ContentComparison.processDiff ol nl (⟨.del, t⟩ :: ⟨.add, u⟩ :: rest) =
      ((ContentComparison.processDiff ol nl rest).1,
       (ContentComparison.processDiff ol nl rest).2.1,
       (if ContentComparison.is_meaningful_change t u
        then ["Changed from '" ++ t ++ "' to '" ++ u ++ "'"] else []) ++
         (ContentComparison.processDiff ol nl rest).2.2) ∧
    ContentComparison.processDiff ol nl (⟨.del, t⟩ :: ⟨.del, u⟩ :: rest) =
      ((ContentComparison.processDiff ol nl (⟨.del, u⟩ :: rest)).1,
       (if nl.any (fun n2 => ContentComparison.is_meaningful_change t n2)
        then ["Deleted: " ++ t] else []) ++
         (ContentComparison.processDiff ol nl (⟨.del, u⟩ :: rest)).2.1,
       (ContentComparison.processDiff ol nl (⟨.del, u⟩ :: rest)).2.2) ∧
    ContentComparison.processDiff ol nl (⟨.del, t⟩ :: ⟨.eq, u⟩ :: rest) =
      ((ContentComparison.processDiff ol nl (⟨.eq, u⟩ :: rest)).1,
       (if nl.any (fun n2 => ContentComparison.is_meaningful_change t n2)
        then ["Deleted: " ++ t] else []) ++
         (ContentComparison.processDiff ol nl (⟨.eq, u⟩ :: rest)).2.1,
       (ContentComparison.processDiff ol nl (⟨.eq, u⟩ :: rest)).2.2) ∧
    ContentComparison.processDiff ol nl (⟨.del, t⟩ :: ⟨.hint, u⟩ :: rest) =
      ((ContentComparison.processDiff ol nl (⟨.hint, u⟩ :: rest)).1,
       (if nl.any (fun n2 => ContentComparison.is_meaningful_change t n2)
        then ["Deleted: " ++ t] else []) ++
         (ContentComparison.processDiff ol nl (⟨.hint, u⟩ :: rest)).2.1,
       (ContentComparison.processDiff ol nl (⟨.hint, u⟩ :: rest)).2.2) ∧
    ContentComparison.processDiff ol nl [⟨.del, t⟩] =
      ([],
       (if nl.any (fun n2 => ContentComparison.is_meaningful_change t n2)
        then ["Deleted: " ++ t] else []),
       []) ∧
    ContentComparison.processDiff ol nl (⟨.eq, t⟩ :: rest) =
      ContentComparison.processDiff ol nl rest ∧
    ContentComparison.processDiff ol nl (⟨.hint, t⟩ :: rest) =
      ContentComparison.processDiff ol nl rest ∧
    ContentComparison.is_meaningful_change t u =
      (if t = "" || u = "" then decide (t = "") != decide (u = "")
       else Difflib.ratioLt
         (Difflib.smRatio Difflib.noJunkChar t.toList u.toList) ⟨7, 10⟩) := by
  refine ⟨rfl, rfl, rfl, rfl, rfl, rfl, rfl, ?_, rfl, rfl, rfl⟩
  simp [ContentComparison.processDiff]

/-- C5, counterexample to the claim as stated: `compare_content` returns only
the three text-diff components and carries no link information.  Two pairs of
inputs with different link deltas (the new version of the first pair adds the
same-domain anchor `https://s.ex/a`; the second pair has no anchors at all)
produce identical `compare_content` results, while the crawler's link-delta
computation (and the spec-modelled 4-tuple `compare_content_spec`)
distinguishes them — so the link delta cannot be a component of
`compare_content`'s return value. -/
theorem C5_three_tuple_counterexample :
    ContentComparison.compare_content (some ⟨[], []⟩)
        (some ⟨[], ["https://s.ex/a"]⟩) =
      ContentComparison.compare_content (some ⟨[], []⟩) (some ⟨[], []⟩) ∧
    ContentComparison.links_changes "https://s.ex/p" ⟨[], []⟩
        ⟨[], ["https://s.ex/a"]⟩ none ≠
      ContentComparison.links_changes "https://s.ex/p" ⟨[], []⟩ ⟨[], []⟩ none ∧
    (ContentComparison.compare_content_spec "https://s.ex/p" ⟨[], []⟩
        ⟨[], ["https://s.ex/a"]⟩ none).2.added_links = ["https://s.ex/a"] := by
  refine ⟨?_, ?_, ?_⟩ <;> decide

namespace ContentComparison

open PyRe

theorem links_fold_mono (page : String) (pfx : Option String) (l : String) :
    ∀ (anchors acc : List String), l ∈ acc →
      l ∈ anchors.foldl
        (fun links href =>
          let full_url := urljoin page (pyStrip href)
          if containsChar full_url '#' then links
          else if netlocOf full_url ≠ netlocOf page then links
          else if (match pfx with
            | some p => decide (p ≠ "") && startsWithStr full_url p
            | none => false) then links
          else if full_url ∈ links then links
          else links ++ [full_url]) acc := by
  intro anchors
  induction anchors with
  | nil => intro acc h; exact h
  | cons href rest ih =>
    intro acc h
    rw [List.foldl_cons]
    apply ih
    dsimp only
    split
    · exact h
    · split
      · exact h
      · split
        · exact h
        · split
          · exact h
          · exact List.mem_append_left _ h

theorem extract_links_sound (page : String) (pfx : Option String) :
    ∀ (anchors acc : List String),
      (∀ l ∈ acc, containsChar l '#' = false ∧ netlocOf l = netlocOf page ∧
        (match pfx with
          | some p => decide (p ≠ "") && startsWithStr l p
          | none => false) = false) →
      ∀ l ∈ anchors.foldl
        (fun links href =>
          let full_url := urljoin page (pyStrip href)
          if containsChar full_url '#' then links
          else if netlocOf full_url ≠ netlocOf page then links
          else if (match pfx with
            | some p => decide (p ≠ "") && startsWithStr full_url p
            | none => false) then links
          else if full_url ∈ links then links
          else links ++ [full_url]) acc,
        containsChar l '#' = false ∧ netlocOf l = netlocOf page ∧
          (match pfx with
            | some p => decide (p ≠ "") && startsWithStr l p
            | none => false) = false := by
  intro anchors
  induction anchors with
  | nil => intro acc hacc; exact hacc
  | cons href rest ih =>
    intro acc hacc
    rw [List.foldl_cons]
    apply ih
    dsimp only
    split
    · exact hacc
    · next h1 =>
      split
      · exact hacc
      · next h2 =>
        split
        · exact hacc
        · next h3 =>
          split
          · exact hacc
          · intro l hl
            rcases List.mem_append.mp hl with hl | hl
            · exact hacc l hl
            · rw [List.mem_singleton.mp hl]
              refine ⟨Bool.of_not_eq_true h1, ?_, Bool.of_not_eq_true h3⟩
              by_contra hne
              exact h2 hne

theorem extract_links_complete (page : String) (pfx : Option String)
    (href : String) :
    ∀ (anchors acc : List String), href ∈ anchors →
      containsChar (urljoin page (pyStrip href)) '#' = false →
      netlocOf (urljoin page (pyStrip href)) = netlocOf page →
      (match pfx with
        | some p => decide (p ≠ "") &&
            startsWithStr (urljoin page (pyStrip href)) p
        | none => false) = false →
      urljoin page (pyStrip href) ∈ anchors.foldl
        (fun links href2 =>
          let full_url := urljoin page (pyStrip href2)
          if containsChar full_url '#' then links
          else if netlocOf full_url ≠ netlocOf page then links
          else if (match pfx with
            | some p => decide (p ≠ "") && startsWithStr full_url p
            | none => false) then links
          else if full_url ∈ links then links
          else links ++ [full_url]) acc := by
  intro anchors
  induction anchors with
  | nil => intro acc h; cases h
  | cons href2 rest ih =>
    intro acc hmem h1 h2 h3
    rw [List.foldl_cons]
    rcases List.mem_cons.mp hmem with heq | hmem2
    · subst heq
      apply links_fold_mono
      dsimp only
      rw [if_neg (by simp [h1]), if_neg (by simp [h2]),
        if_neg (show ¬_ = true by rw [h3]; simp)]
      split
      · assumption
      · exact List.mem_append_right _ (List.mem_singleton.mpr rfl)
    · exact ih _ hmem2 h1 h2 h3

theorem filter_not_mem_filter (l : List String) (p : String → Bool) :
    l.filter (fun x => decide (x ∉ l.filter p)) = l.filter (fun x => !p x) := by
  apply List.filter_congr
  intro x hx
  by_cases hp : p x = true
  · simp [List.mem_filter, hx, hp]
  · simp [List.mem_filter, hp]

end ContentComparison

/-- C5, amended: the source's `compare_content` returns the 3-tuple of text
diffs `(added, deleted, changed)`; the link/PDF delta is computed separately
by the crawler around it (modelled by `links_changes`, and assembled with the
text diffs in the spec-modelled 4-tuple `compare_content_spec`).  The delta
extracts same-domain anchors from both versions — excluding every resolved
URL containing `#` (hence all fragment links) and, when a nonempty exclusion
prefix is configured, every URL starting with it — set-differences them into
added/removed links, and partitions each difference by the case-insensitive
`.pdf` suffix (the `*_links` components keep the non-PDF URLs). -/
theorem C5_link_delta_amended (page : String)
    (o n doc : ContentComparison.ParsedDoc) (pfx : Option String) :
    (ContentComparison.compare_content_spec page o n pfx).1 =
      ContentComparison.compare_content (some o) (some n) ∧
    (ContentComparison.compare_content_spec page o n pfx).2 =
      ContentComparison.links_changes page o n pfx ∧
    (ContentComparison.links_changes page o n pfx).added_pdfs =
      ((ContentComparison.extract_links page n pfx).filter
        (fun l => decide (l ∉ ContentComparison.extract_links page o pfx))).filter
        ContentComparison.isPdfLink ∧
    (ContentComparison.links_changes page o n pfx).removed_pdfs =
      ((ContentComparison.extract_links page o pfx).filter
        (fun l => decide (l ∉ ContentComparison.extract_links page n pfx))).filter
        ContentComparison.isPdfLink ∧
    (ContentComparison.links_changes page o n pfx).added_links =
      ((ContentComparison.extract_links page n pfx).filter
        (fun l => decide (l ∉ ContentComparison.extract_links page o pfx))).filter
        (fun l => !ContentComparison.isPdfLink l) ∧
    (ContentComparison.links_changes page o n pfx).removed_links =
      ((ContentComparison.extract_links page o pfx).filter
        (fun l => decide (l ∉ ContentComparison.extract_links page n pfx))).filter
        (fun l => !ContentComparison.isPdfLink l) ∧
    (∀ l ∈ ContentComparison.extract_links page doc pfx,
      ContentComparison.containsChar l '#' = false ∧
      ContentComparison.netlocOf l = ContentComparison.netlocOf page ∧
      (match pfx with
        | some p => decide (p ≠ "") && ContentComparison.startsWithStr l p
        | none => false) = false) ∧
    (∀ href ∈ doc.anchors,
      ContentComparison.containsChar
          (ContentComparison.urljoin page (PyRe.pyStrip href)) '#' = false →
      ContentComparison.netlocOf
          (ContentComparison.urljoin page (PyRe.pyStrip href)) =
        ContentComparison.netlocOf page →
      (match pfx with
        | some p => decide (p ≠ "") && ContentComparison.startsWithStr
            (ContentComparison.urljoin page (PyRe.pyStrip href)) p
        | none => false) = false →
      ContentComparison.urljoin page (PyRe.pyStrip href) ∈
        ContentComparison.extract_links page doc pfx) := by
  refine ⟨rfl, rfl, rfl, rfl,
    ContentComparison.filter_not_mem_filter _ _,
    ContentComparison.filter_not_mem_filter _ _, ?_, ?_⟩
  · exact ContentComparison.extract_links_sound page pfx doc.anchors []
      (by intro l hl; cases hl)
  · intro href hhref h1 h2 h3
    exact ContentComparison.extract_links_complete page pfx href doc.anchors []
      hhref h1 h2 h3

namespace MongoState

theorem selRemaining_spec :
    ∀ (db : List UrlRec) (i : Nat), selRemaining db = some i →
      ∃ r, db.get? i = some r ∧ r.status = .remaining := by
  intro db
  induction db with
  | nil => intro i h; cases h
  | cons r rest ih =>
    intro i h
    by_cases hr : r.status = .remaining
    · simp only [selRemaining, if_pos hr] at h
      cases h
      exact ⟨r, rfl, hr⟩
    · simp only [selRemaining, if_neg hr] at h
      cases hs : selRemaining rest with
      | none => rw [hs] at h; cases h
      | some j =>
        rw [hs] at h
        simp only [Option.map_some', Option.some.injEq] at h
        obtain ⟨r2, hg, hst⟩ := ih j hs
        refine ⟨r2, ?_, hst⟩
        rw [← h]
        exact hg
  
theorem selRemaining_none :
    ∀ db : List UrlRec, selRemaining db = none ↔
      ∀ r ∈ db, r.status ≠ .remaining := by
  intro db
  induction db with
  | nil => simp [selRemaining]
  | cons r rest ih =>
    by_cases hr : r.status = .remaining
    · simp only [selRemaining, if_pos hr]
      constructor
      · intro h; cases h
      · intro h; exact absurd hr (h r (List.mem_cons_self r rest))
    · simp only [selRemaining, if_neg hr, Option.map_eq_none']
      rw [ih]
      constructor
      · intro h r2 hr2
        rcases List.mem_cons.mp hr2 with rfl | hmem
        · exact hr
        · exact h r2 hmem
      · intro h r2 hr2
        exact h r2 (List.mem_cons_of_mem _ hr2)

theorem selRecrawl_none (cutoff : Int) :
    ∀ db : List UrlRec, selRecrawl cutoff db = none ↔
      ∀ r ∈ db, eligibleRecrawl cutoff r = false := by
  intro db
  induction db with
  | nil => simp [selRecrawl]
  | cons r rest ih =>
    by_cases hr : eligibleRecrawl cutoff r = true
    · constructor
      · intro h
        exfalso
        simp only [selRecrawl, if_pos hr] at h
        cases hs : selRecrawl cutoff rest with
        | none =>
          simp only [hs] at h
          exact Option.noConfusion h
        | some j =>
          simp only [hs] at h
          cases hg : rest.get? j with
          | none =>
            simp only [hg] at h
            exact Option.noConfusion h
          | some r2 =>
            simp only [hg] at h
            split at h <;> cases h
      · intro h
        exact absurd hr (by simp [h r (List.mem_cons_self _ _)])
    · simp only [selRecrawl, if_neg hr, Option.map_eq_none']
      rw [ih]
      constructor
      · intro h r2 hr2
        rcases List.mem_cons.mp hr2 with rfl | hmem
        · exact Bool.of_not_eq_true hr
        · exact h r2 hmem
      · intro h r2 hr2
        exact h r2 (List.mem_cons_of_mem _ hr2)

theorem selRecrawl_spec (cutoff : Int) :
    ∀ (db : List UrlRec) (i : Nat), selRecrawl cutoff db = some i →
      ∃ r, db.get? i = some r ∧ eligibleRecrawl cutoff r = true ∧
        ∀ r2 ∈ db, eligibleRecrawl cutoff r2 = true →
          lcVal r ≤ lcVal r2 := by
  intro db
  induction db with
  | nil => intro i h; cases h
  | cons r rest ih =>
    intro i h
    by_cases hr : eligibleRecrawl cutoff r = true
    · simp only [selRecrawl, if_pos hr] at h
      cases hs : selRecrawl cutoff rest with
      | none =>
        simp only [hs] at h
        cases h
        refine ⟨r, rfl, hr, ?_⟩
        intro r2 hr2 he2
        rcases List.mem_cons.mp hr2 with rfl | hmem
        · exact le_refl _
        · exact absurd he2
            (by simp [(selRecrawl_none cutoff rest).mp hs r2 hmem])
      | some j =>
        simp only [hs] at h
        obtain ⟨rj, hgj, hej, hminj⟩ := ih j hs
        simp only [hgj] at h
        by_cases hlt : lcVal rj < lcVal r
        · rw [if_pos hlt] at h
          cases h
          refine ⟨rj, hgj, hej, ?_⟩
          intro r2 hr2 he2
          rcases List.mem_cons.mp hr2 with rfl | hmem
          · exact le_of_lt hlt
          · exact hminj r2 hmem he2
        · rw [if_neg hlt] at h
          cases h
          refine ⟨r, rfl, hr, ?_⟩
          intro r2 hr2 he2
          rcases List.mem_cons.mp hr2 with rfl | hmem
          · exact le_refl _
          · exact le_trans (not_lt.mp hlt) (hminj r2 hmem he2)
    · simp only [selRecrawl, if_neg hr] at h
      cases hs : selRecrawl cutoff rest with
      | none => rw [hs] at h; cases h
      | some j =>
        rw [hs] at h
        simp only [Option.map_some', Option.some.injEq] at h
        obtain ⟨rj, hgj, hej, hminj⟩ := ih j hs
        refine ⟨rj, ?_, hej, ?_⟩
        · rw [← h]
          exact hgj
        · intro r2 hr2 he2
          rcases List.mem_cons.mp hr2 with rfl | hmem
          · exact absurd he2 (by simp [hr])
          · exact hminj r2 hmem he2

theorem get?_lt_length {β : Type} :
    ∀ (l : List β) (i : Nat) (x : β), l.get? i = some x → i < l.length := by
  intro l
  induction l with
  | nil => intro i x h; cases h
  | cons a rest ih =>
    intro i x h
    cases i with
    | zero => exact Nat.succ_pos _
    | succ j => exact Nat.succ_lt_succ (ih j x h)

theorem get?_set_self {β : Type} :
    ∀ (l : List β) (i : Nat) (x : β), i < l.length →
      (l.set i x).get? i = some x := by
  intro l
  induction l with
  | nil => intro i x h; exact absurd h (Nat.not_lt_zero i)
  | cons a rest ih =>
    intro i x h
    cases i with
    | zero => rfl
    | succ j => exact ih j x (Nat.lt_of_succ_lt_succ h)

theorem get?_set_other {β : Type} :
    ∀ (l : List β) (i j : Nat) (x : β), i ≠ j →
      (l.set i x).get? j = l.get? j := by
  intro l
  induction l with
  | nil => intro i j x _; rfl
  | cons a rest ih =>
    intro i j x h
    cases i with
    | zero =>
      cases j with
      | zero => exact absurd rfl h
      | succ j2 => rfl
    | succ i2 =>
      cases j with
      | zero => rfl
      | succ j2 => exact ih i2 j2 x (fun he => h (by rw [he]))

theorem nodup_urls_ne (db : List UrlRec)
    (hnd : (db.map (fun r => r.url)).Nodup) (i j : Nat) (r r2 : UrlRec)
    (hi : db.get? i = some r) (hj : db.get? j = some r2) (hij : i ≠ j) :
    r.url ≠ r2.url := by
  intro he
  apply hij
  have h1 : (db.map (fun r => r.url)).get? i = some r.url := by
    rw [List.get?_map, hi]; rfl
  have h2 : (db.map (fun r => r.url)).get? j = some r2.url := by
    rw [List.get?_map, hj]; rfl
  refine List.get?_inj ?_ hnd ?_
  · rw [List.length_map]
    exact get?_lt_length db i r hi
  · rw [h1, h2, he]

theorem get_next_url_spec (now : Int) (db : List UrlRec) (u : String) :
    (get_next_url now db).1 = some u →
    ∃ i r, db.get? i = some r ∧ r.url = u ∧
      (get_next_url now db).2 =
        db.set i { r with status := .in_progress, updated_at := some now } ∧
      (r.status = .remaining ∨
        (r.status = .visited ∧
         eligibleRecrawl (now - 3 * 86400) r = true ∧
         (∀ r2 ∈ db, r2.status ≠ .remaining) ∧
         (∀ r2 ∈ db, eligibleRecrawl (now - 3 * 86400) r2 = true →
           lcVal r ≤ lcVal r2))) := by
  intro h
  unfold get_next_url at h ⊢
  cases hs : selRemaining db with
  | some i =>
    simp only [hs] at h ⊢
    obtain ⟨r, hg, hst⟩ := selRemaining_spec db i hs
    simp only [hg, Option.map_some', Option.some.injEq] at h
    refine ⟨i, r, hg, h, ?_, Or.inl hst⟩
    simp only [claimAt, hg]
  | none =>
    simp only [hs] at h ⊢
    cases hc : selRecrawl (now - 3 * 86400) db with
    | none =>
      simp only [hc] at h
      exact Option.noConfusion h
    | some i =>
      simp only [hc] at h ⊢
      obtain ⟨r, hg, hel, hmin⟩ := selRecrawl_spec _ db i hc
      simp only [hg, Option.map_some', Option.some.injEq] at h
      have hvis : r.status = .visited := by
        have := hel
        simp only [eligibleRecrawl, Bool.and_eq_true, decide_eq_true_eq] at this
        exact this.1
      refine ⟨i, r, hg, h, ?_,
        Or.inr ⟨hvis, hel, fun r2 h2 => (selRemaining_none db).mp hs r2 h2,
          hmin⟩⟩
      simp only [claimAt, hg]

theorem get_next_url_none (now : Int) (db : List UrlRec) :
    (get_next_url now db).1 = none ↔
      selRemaining db = none ∧ selRecrawl (now - 3 * 86400) db = none := by
  unfold get_next_url
  cases hs : selRemaining db with
  | some i =>
    obtain ⟨r, hg, -⟩ := selRemaining_spec db i hs
    simp [hs, hg]
    exact get?_lt_length db i r hg
  | none =>
    cases hc : selRecrawl (now - 3 * 86400) db with
    | some i =>
      obtain ⟨r, hg, -, -⟩ := selRecrawl_spec _ db i hc
      simp [hs, hc, hg]
      exact get?_lt_length db i r hg
    | none => simp [hs, hc]

end MongoState

/-- C1: `get_next_url` claims a URL by one atomic conditional
fetch-and-update: it selects a `remaining` document if one exists — setting
its status to `in_progress` and stamping `updated_at` — and otherwise the
`visited` document with the smallest `last_crawled` among those with
`last_crawled` older than 3 days (259200 seconds); it returns `none` exactly
when no eligible document exists.  Because each claim is a single atomic
state transition, any interleaving of two concurrent calls is one of the
sequential compositions, and the two calls can never return the same URL:
the first claim leaves the claimed document `in_progress`, which no later
selection matches. -/
theorem C1_get_next_url_exclusive_claim (db : List MongoState.UrlRec)
    (now now2 : Int) (u u2 : String)
    (hnd : (db.map (fun r => r.url)).Nodup) :
    ((MongoState.get_next_url now db).1 = some u →
      (MongoState.get_next_url now2 (MongoState.get_next_url now db).2).1 =
        some u2 →
      u ≠ u2) ∧
    ((MongoState.get_next_url now db).1 = none ↔
      ∀ r ∈ db, r.status ≠ .remaining ∧
        MongoState.eligibleRecrawl (now - 3 * 86400) r = false) ∧
    ((MongoState.get_next_url now db).1 = some u →
      ∃ i r, db.get? i = some r ∧ r.url = u ∧
        (MongoState.get_next_url now db).2 =
          db.set i { r with status := .in_progress, updated_at := some now } ∧
        (r.status = .remaining ∨
          (r.status = .visited ∧
           MongoState.eligibleRecrawl (now - 3 * 86400) r = true ∧
           (∀ r2 ∈ db, r2.status ≠ .remaining) ∧
           (∀ r2 ∈ db,
             MongoState.eligibleRecrawl (now - 3 * 86400) r2 = true →
             MongoState.lcVal r ≤ MongoState.lcVal r2)))) := by
  refine ⟨?_, ?_, MongoState.get_next_url_spec now db u⟩
  · intro h1 h2
    obtain ⟨i, r, hg, hu, hdb2, -⟩ := MongoState.get_next_url_spec now db u h1
    obtain ⟨i2, r2, hg2, hu2, -, hstat2⟩ :=
      MongoState.get_next_url_spec now2 _ u2 h2
    rw [hdb2] at hg2
    by_cases hii : i = i2
    · subst hii
      rw [MongoState.get?_set_self db i _
        (MongoState.get?_lt_length db i r hg)] at hg2
      have hr2 : r2.status = .in_progress := by
        cases hg2
        rfl
      rcases hstat2 with hs2 | hs2
      · rw [hr2] at hs2
        cases hs2
      · rw [hr2] at hs2
        cases hs2.1
    · rw [MongoState.get?_set_other db i i2 _ hii] at hg2
      intro he
      exact MongoState.nodup_urls_ne db hnd i i2 r r2 hg hg2 hii
        (by rw [hu, hu2, he])
  · rw [MongoState.get_next_url_none]
    rw [MongoState.selRemaining_none, MongoState.selRecrawl_none]
    constructor
    · rintro ⟨ha, hb⟩ r hr
      exact ⟨ha r hr, hb r hr⟩
    · intro h
      exact ⟨fun r hr => (h r hr).1, fun r hr => (h r hr).2⟩

/-- Witness for C1 on a two-URL frontier of remaining documents: the two
successive claims return the distinct URLs `"a"` and `"b"`, and the
no-eligible-URL characterization holds at this state. -/
theorem C1_get_next_url_exclusive_claim_witness :
    ("a" : String) ≠ "b" ∧
    ((MongoState.get_next_url 0
        [⟨"a", .remaining, none, none, none, 0⟩,
         ⟨"b", .remaining, none, none, none, 0⟩]).1 = none ↔
      ∀ r ∈ [(⟨"a", .remaining, none, none, none, 0⟩ : MongoState.UrlRec),
             ⟨"b", .remaining, none, none, none, 0⟩],
        r.status ≠ .remaining ∧
          MongoState.eligibleRecrawl (0 - 3 * 86400) r = false) :=
  ⟨(C1_get_next_url_exclusive_claim
      [⟨"a", .remaining, none, none, none, 0⟩,
       ⟨"b", .remaining, none, none, none, 0⟩] 0 0 "a" "b" (by decide)).1
      (by decide) (by decide),
   (C1_get_next_url_exclusive_claim
      [⟨"a", .remaining, none, none, none, 0⟩,
       ⟨"b", .remaining, none, none, none, 0⟩] 0 0 "a" "b" (by decide)).2.1⟩
